import Mathlib

/-
  Verification of the mask lifecycle engine of
  `torch/ao/sparsity/experimental/pruner/base_pruner.py`.

  The Python object graph is embedded as a heap: module objects are nodes
  addressed by references (`Ref`, playing the role of Python object
  identity), and the module tree is given by each node's ordered
  `children` association list, mirroring `named_children()`.  Python
  strings are embedded as `List Char` so that the path manipulation of
  `_module_to_fqn` / `_fqn_to_module` (joining and splitting on '.') is
  fully executable and provable.  Mutation of a module in place is
  threaded as a functional update of its node in the heap.  Recursions
  over the heap carry explicit fuel so that every definition is
  structurally recursive and kernel-evaluable on concrete inputs.
-/

/-- Python strings, embedded as lists of characters. -/
abbrev PStr := List Char

/-- Splitting a Python string on the separator '.', as `path.split('.')`
does: the result always has one more component than there are dots. -/
def splitOnDot : PStr → List PStr
  | [] => [[]]
  | c :: rest =>
      match splitOnDot rest with
      | [] => [[]]
      | w :: ws => if c = '.' then [] :: w :: ws else (c :: w) :: ws

/-- The leading-separator stripping performed by `prepare`
(`if module_fqn and module_fqn[0] == '.': module_fqn = module_fqn[1:]`). -/
def stripLeadingDot : PStr → PStr
  | '.' :: rest => rest
  | s => s

/-- Identity of a Python class object.  `nnLinear`, `nnConv2d` and
`nnBatchNorm2d` are the three torch classes named in the fixed sets of
`base_pruner.py`; `custom n` stands for any other class. -/
inductive ClassId where
  | nnLinear
  | nnConv2d
  | nnBatchNorm2d
  | custom (n : Nat)
  deriving DecidableEq, Repr

/-- A Python class: its own identity together with its method resolution
order (the list of ancestor class identities, itself included). -/
structure PyCls where
  id : ClassId
  mro : List ClassId
  deriving DecidableEq, Repr

/-- `SUPPORTED_MODULES` of `base_pruner.py`: nn.Linear, nn.Conv2d and
nn.BatchNorm2d (the latter with the comment "will need manual update"). -/
def SUPPORTED_MODULES : List ClassId :=
  [ClassId.nnLinear, ClassId.nnConv2d, ClassId.nnBatchNorm2d]

/-- `NEEDS_MANUAL_UPDATE` of `base_pruner.py`: just nn.BatchNorm2d. -/
def NEEDS_MANUAL_UPDATE : List ClassId :=
  [ClassId.nnBatchNorm2d]

/-- `NEEDS_ZEROS` of `base_pruner.py`: just nn.BatchNorm2d. -/
def NEEDS_ZEROS : List ClassId :=
  [ClassId.nnBatchNorm2d]

/-- The exact-type membership test `type(x) in S`: the class identity
itself is a member of the set. -/
def exactIn (c : PyCls) (s : List ClassId) : Bool :=
  s.contains c.id

/-- The subclass-inclusive test `isinstance(x, tuple(S))`: some member of
the set occurs in the class's method resolution order. -/
def instOf (c : PyCls) (s : List ClassId) : Bool :=
  s.any (fun k => c.mro.contains k)

/-- A tensor: a shape and the flat row-major data. -/
structure Tensor where
  shape : List Nat
  data : List Int
  deriving DecidableEq, Repr

/-- A tensor is well formed when its data has exactly as many entries as
the shape prescribes. -/
def wfTensor (t : Tensor) : Prop :=
  t.data.length = t.shape.prod

/-- `torch.tensor(n)` for a Python int `n`: a zero-dimensional scalar
tensor holding the single value `n`. -/
def scalarTensor (n : Nat) : Tensor :=
  ⟨[], [(n : Int)]⟩

/-- `Tensor.detach()`.  Detaching severs the autograd link; the value is
unchanged.  The autograd engine is an external collaborator outside this
core, so only the value is represented. -/
def Tensor.detach (t : Tensor) : Tensor := t

/-- The number of output units `t.shape[0]` used by `_prepare`
(`module.weight.shape[0]`); reading `shape[0]` of a zero-dimensional
tensor would be an IndexError, surfaced by the caller. -/
def Tensor.shape0 : Tensor → Option Nat
  | ⟨n :: _, _⟩ => some n
  | ⟨[], _⟩ => none

/-- The length of one output row: the product of the trailing shape. -/
def Tensor.rowLen (t : Tensor) : Nat :=
  t.shape.tail.prod

/-- An entry of a module's `_parameters` dictionary. -/
structure Param where
  data : Tensor
  requiresGrad : Bool
  deriving DecidableEq, Repr

/-- Modelled from the spec: the `torch.nn.Parameter` wrapper used by
`module.register_parameter('_bias', nn.Parameter(module.bias.detach()))`
is host-engine code that is not under `src/`.  Per the spec, the detached
bias goes into "a secondary, non-trainable-by-default storage slot". -/
def nnParameter (t : Tensor) : Param :=
  ⟨t, false⟩

/-- The two parametrization classes referenced by `_prepare`. -/
inductive PKind where
  | pruning
  | zeroes
  deriving DecidableEq, Repr

/-- Modelled from the spec: the internal state of a parametrization
object of `parametrization.py`, which is not under `src/`.  The instance
is created from the mask buffer (a scalar holding the output-unit count)
and starts with no unit pruned, the "fully-retained" baseline; the set of
pruned output indices is its mutable state. -/
structure PruneState where
  originalOutputs : Nat
  prunedOutputs : List Nat
  deriving DecidableEq, Repr

/-- An installed weight transform: its class and its state. -/
structure Parametrization where
  kind : PKind
  state : PruneState
  deriving DecidableEq, Repr

/-- Modelled from the spec: constructing `param(module.mask)` at
`_prepare` lines 110/125; `parametrization.py` is not under `src/`.  The
transform records the output-unit count carried by the mask buffer and
begins with an empty pruned set. -/
def mkParametrization (k : PKind) (maskT : Tensor) : Parametrization :=
  ⟨k, ⟨(maskT.data.headD 0).toNat, []⟩⟩

/-- Modelled from the spec: the structural-path transform "physically
removes masked-out units, shrinking the weight's output dimension"
(`PruningParametrization`, not under `src/`).  Rows whose index is in the
pruned set are dropped. -/
def pruneForward (pruned : List Nat) (t : Tensor) : Tensor :=
  let o := t.shape.headD 0
  let r := t.rowLen
  let kept := (List.range o).filter (fun i => decide (i ∉ pruned))
  ⟨kept.length :: t.shape.tail,
   kept.flatMap (fun i => (t.data.drop (i * r)).take r)⟩

/-- Modelled from the spec: the needs-zeroing transform "zeroes the
masked-out units in place but preserves tensor shape"
(`ZeroesParametrization`, not under `src/`). -/
def zeroForward (pruned : List Nat) (t : Tensor) : Tensor :=
  let o := t.shape.headD 0
  let r := t.rowLen
  ⟨t.shape,
   (List.range o).flatMap (fun i =>
     if i ∈ pruned then List.replicate r 0
     else (t.data.drop (i * r)).take r)⟩

/-- Applying one installed transform to a stored weight. -/
def applyParametrization (p : Parametrization) (w : Tensor) : Tensor :=
  match p.kind with
  | .pruning => pruneForward p.state.prunedOutputs w
  | .zeroes => zeroForward p.state.prunedOutputs w

/-- A forward hook installed by `_prepare`: the activation-reconstruction
hook of the structural path, or the bias-reconciliation hook (which closes
over the `prune_bias` flag passed at registration time). -/
inductive Hook where
  | activationReconstruction
  | biasHook (pruneBias : Bool)
  deriving DecidableEq, Repr

/-- A Python object reference (object identity). -/
abbrev Ref := Nat

/-- A module object: its class, primary weight and bias, the
`_parameters` and `_buffers` namespaces, the installed weight-transform
chain, the registered forward hooks, and the ordered named children. -/
structure Node where
  cls : PyCls
  weight : Option Tensor
  bias : Option Tensor
  params : List (PStr × Param)
  buffers : List (PStr × Tensor)
  parametrizations : List Parametrization
  hooks : List Hook
  children : List (PStr × Ref)
  deriving DecidableEq, Repr

/-- The heap: every live module object, addressed by reference. -/
abbrev Heap := List (Ref × Node)

/-- First-match association lookup (Python dictionary read). -/
def alook {κ α : Type} [DecidableEq κ] : List (κ × α) → κ → Option α
  | [], _ => none
  | (k, v) :: rest, k' => if k' = k then some v else alook rest k'

/-- Association update: overwrite the existing binding or append a new
one (Python dictionary write). -/
def aset {κ α : Type} [DecidableEq κ] : List (κ × α) → κ → α → List (κ × α)
  | [], k, v => [(k, v)]
  | (k0, v0) :: rest, k, v =>
      if k = k0 then (k, v) :: rest else (k0, v0) :: aset rest k v

/-- Association deletion of the first binding of a key. -/
def adel {κ α : Type} [DecidableEq κ] : List (κ × α) → κ → List (κ × α)
  | [], _ => []
  | (k0, v0) :: rest, k =>
      if k = k0 then rest else (k0, v0) :: adel rest k

/-- Dereference a module object. -/
def hGet (h : Heap) (r : Ref) : Option Node :=
  alook h r

/-- Overwrite a module object in place. -/
def hSet (h : Heap) (r : Ref) (n : Node) : Heap :=
  h.map (fun p => if p.1 = r then (p.1, n) else p)

/-- The ordered named children of a module (`named_children()`). -/
def childrenAt (h : Heap) (r : Ref) : List (PStr × Ref) :=
  match hGet h r with
  | some n => n.children
  | none => []

/-- The child references of a module, in declaration order. -/
def kidRefs (h : Heap) (r : Ref) : List Ref :=
  (childrenAt h r).map (·.2)

/-- The buffer name "mask". -/
def maskName : PStr := "mask".toList

/-- The parameter name "_bias". -/
def biasName : PStr := "_bias".toList

/-- `getattr(module, 'mask', None)`: `nn.Module.__getattr__` consults the
`_parameters` namespace first, then `_buffers`. -/
def getattrMask (n : Node) : Option Tensor :=
  match alook n.params maskName with
  | some p => some p.data
  | none => alook n.buffers maskName

/-- The exception outcomes of the embedded operations. -/
inductive PyErr where
  | attributeError
  | indexError
  | notImplementedError
  | valueError
  | danglingRef
  deriving DecidableEq, Repr

/-- Success test for an embedded operation. -/
def isOkE {α : Type} : Except PyErr α → Bool
  | .ok _ => true
  | .error _ => false

/-- The error carried by an embedded operation, if any. -/
def errOf {α : Type} : Except PyErr α → Option PyErr
  | .ok _ => none
  | .error e => some e

/-- `_module_to_fqn(model, layer, prefix)`: depth-first search over
`named_children`, returning the first dotted path whose terminal child is
the given object.  The fuel argument bounds the recursion depth; the
Python original recurses on the (finite, acyclic) module tree. -/
def moduleToFqn : Nat → Heap → Ref → Ref → PStr → Option PStr
  | 0, _, _, _, _ => none
  | fuel + 1, h, cur, layer, pfx =>
      (childrenAt h cur).findSome? (fun nc =>
        let newName := pfx ++ '.' :: nc.1
        if nc.2 = layer then some newName
        else moduleToFqn fuel h nc.2 layer newName)

/-- Attribute lookup of a named child (`getattr(model, name, None)`
restricted to the module namespace; torch keeps child names disjoint from
parameter and buffer names). -/
def lookupChild (h : Heap) (r : Ref) (name : PStr) : Option Ref :=
  alook (childrenAt h r) name

/-- Walking a list of path components by repeated attribute lookup. -/
def walkChain (h : Heap) : Ref → List PStr → Option Ref
  | r, [] => some r
  | r, name :: rest =>
      match lookupChild h r name with
      | none => none
      | some c => walkChain h c rest

/-- `_fqn_to_module(model, path)`: split the path on '.' and walk the
components, returning not-found if any component is absent. -/
def fqnToModule (h : Heap) (root : Ref) (path : PStr) : Option Ref :=
  walkChain h root (splitOnDot path)

/-- A module group: the per-module configuration record appended by
`prepare`.  `module` is the object reference, `fqn` the (possibly
unresolvable, hence optional) dotted path, `parametrization` the optional
override of the transform class, and `extra` the remaining opaque
policy-specific keys. -/
structure MGroup where
  module : Ref
  fqn : Option PStr
  parametrization : Option PKind
  extra : List (PStr × Nat)
  deriving DecidableEq, Repr

/-- The pruner's default configuration (`self.defaults`). -/
structure Defaults where
  parametrization : Option PKind
  extra : List (PStr × Nat)
  deriving DecidableEq, Repr

/-- One entry of the `config` argument of `prepare`: either a bare module
reference or a configuration dict with a mandatory 'module' key. -/
inductive ConfigEntry where
  | bare (m : Ref)
  | dict (m : Ref) (parametrization : Option PKind) (extra : List (PStr × Nat))
  deriving DecidableEq, Repr

/-- Python `dict.update` on the opaque policy keys: entry keys win,
defaults keep their position, new keys are appended. -/
def dictUpdate (d e : List (PStr × Nat)) : List (PStr × Nat) :=
  d.map (fun p =>
    match alook e p.1 with
    | some v => (p.1, v)
    | none => p) ++
  e.filter (fun q => (alook d q.1).isNone)

/-- The pruner object state (`BasePruner.__init__` plus the fields set by
`prepare`). -/
structure Pruner where
  defaults : Defaults
  moduleGroups : List MGroup
  enableMaskUpdate : Bool
  model : Ref
  pruneBias : Bool
  deriving DecidableEq, Repr

/-- `prepare` lines 166-176 for one config entry: deep-copy the defaults,
overlay the entry's keys, resolve the fqn via `_module_to_fqn` and strip
a leading '.'. -/
def buildGroup (h : Heap) (model : Ref) (d : Defaults) (e : ConfigEntry) : MGroup :=
  let merged : MGroup :=
    match e with
    | .bare m => ⟨m, none, d.parametrization, d.extra⟩
    | .dict m pk ex => ⟨m, none, pk.orElse (fun _ => d.parametrization), dictUpdate d.extra ex⟩
  let fqn0 := moduleToFqn (h.length + 1) h model merged.module []
  let fqn :=
    match fqn0 with
    | some ('.' :: rest) => some rest
    | other => other
  { merged with fqn := fqn }

/-- One scan of `named_children()` of the popped module during
auto-discovery (`prepare` lines 157-164): supported exact types are
appended to the config, everything else is pushed onto the stack (with
the dead-in-practice manual-update warning check).  Returns the appended
config entries, the emitted warnings (as the offending class identity),
and the refs pushed, topmost first. -/
def scanKids (h : Heap) (pruneBias : Bool) :
    List (PStr × Ref) → List Ref × List ClassId × List Ref
  | [] => ([], [], [])
  | (_, c) :: rest =>
      let (reg, ws, push) := scanKids h pruneBias rest
      match hGet h c with
      | none => (reg, ws, push)
      | some n =>
          if exactIn n.cls SUPPORTED_MODULES then (c :: reg, ws, push)
          else
            if exactIn n.cls NEEDS_MANUAL_UPDATE && pruneBias then
              (reg, n.cls.id :: ws, push ++ [c])
            else (reg, ws, push ++ [c])

/-- The auto-discovery stack loop of `prepare` (config is None): pop a
module, scan its children, push the non-supported ones.  The stack's top
is the head of the list, matching `stack.pop()` from the end of a Python
list.  Fuel bounds the number of iterations. -/
def discoverLoop : Nat → Heap → Bool → List Ref → List Ref → List ClassId →
    List Ref × List ClassId
  | 0, _, _, _, acc, warns => (acc, warns)
  | _ + 1, _, _, [], acc, warns => (acc, warns)
  | fuel + 1, h, pb, r :: stack, acc, warns =>
      let (reg, ws, push) := scanKids h pb (childrenAt h r)
      discoverLoop fuel h pb (push ++ stack) (acc ++ reg) (warns ++ ws)

/-- The body of the `_prepare` loop (lines 99-130) for one module group.
All mutations hit the single resolved module, so they are threaded as a
functional update of its node; the heap receives the final node. -/
def prepGroup (pb : Bool) (h : Heap) (model : Ref) (usePath : Bool)
    (g : MGroup) : Except PyErr Heap :=
  let mref? : Except PyErr (Option Ref) :=
    if usePath then
      match g.fqn with
      | none => .error .attributeError
      | some p => .ok (fqnToModule h model p)
    else .ok (some g.module)
  match mref? with
  | .error e => .error e
  | .ok none => .error .danglingRef
  | .ok (some mref) =>
      match hGet h mref with
      | none => .error .danglingRef
      | some m =>
          let afterMask : Except PyErr Node :=
            if (getattrMask m).isNone then
              match m.weight with
              | none => .error .attributeError
              | some w =>
                  match w.shape0 with
                  | none => .error .indexError
                  | some o =>
                      .ok { m with buffers := aset m.buffers maskName (scalarTensor o) }
            else .ok m
          match afterMask with
          | .error e => .error e
          | .ok m1 =>
              match getattrMask m1 with
              | none => .error .attributeError
              | some maskT =>
                  let branch : Except PyErr Node :=
                    if ¬ instOf m1.cls NEEDS_ZEROS then
                      let k := g.parametrization.getD PKind.pruning
                      let m2 := { m1 with
                        parametrizations := m1.parametrizations ++ [mkParametrization k maskT] }
                      if instOf m2.cls SUPPORTED_MODULES then
                        .ok { m2 with hooks := m2.hooks ++ [Hook.activationReconstruction] }
                      else .error .notImplementedError
                    else
                      let k := g.parametrization.getD PKind.zeroes
                      .ok { m1 with
                        parametrizations := m1.parametrizations ++ [mkParametrization k maskT] }
                  match branch with
                  | .error e => .error e
                  | .ok m3 =>
                      let m4 :=
                        match m3.bias with
                        | some b =>
                            { m3 with
                              params := aset m3.params biasName (nnParameter b.detach),
                              bias := none }
                        | none => m3
                      .ok (hSet h mref { m4 with hooks := m4.hooks ++ [Hook.biasHook pb] })

/-- The `_prepare` loop over all module groups. -/
def prepAll (pb : Bool) (model : Ref) (usePath : Bool) :
    List MGroup → Heap → Except PyErr Heap
  | [], h => .ok h
  | g :: rest, h =>
      match prepGroup pb h model usePath g with
      | .error e => .error e
      | .ok h1 => prepAll pb model usePath rest h1

/-- `prepare(model, config, also_prune_bias)`: store the model and flag,
auto-discover the config when it is None, normalize every entry into a
module group, then run `_prepare` (with use_path False).  Returns the new
heap, the new pruner state and the discovery warnings. -/
def prepare (h : Heap) (p : Pruner) (model : Ref)
    (config : Option (List ConfigEntry)) (pb : Bool) :
    Except PyErr (Heap × Pruner × List ClassId) :=
  let (entries, warns) :=
    match config with
    | some c => (c, [])
    | none =>
        let (reg, ws) :=
          discoverLoop (h.length + (h.flatMap (fun q => q.2.children)).length + 1)
            h pb [model] [] []
        (reg.map ConfigEntry.bare, ws)
  let groups := p.moduleGroups ++ entries.map (buildGroup h model p.defaults)
  let p1 := { p with model := model, pruneBias := pb, moduleGroups := groups }
  match prepAll pb model false groups h with
  | .error e => .error e
  | .ok h1 => .ok (h1, p1, warns)

/-- Modelled from the spec: the dict-attribute lookups
`getattr(module._parameters, 'mask', None)` and
`getattr(module._buffers, 'mask', None)` of `squash_mask` read an
attribute of the dictionary object itself, not a key, so they always
yield the default None; both deletion branches guarded by them are dead
and the removal falls through to `delattr`. -/
def dictAttrGet (_d : List (PStr × Param)) : Option Param :=
  none

/-- Modelled from the spec: `delattr(module, 'mask')` relies on the host
module system, which "delete[s] the mask buffer from wherever it was
stored (parameter or buffer namespace — whichever holds it)"; a missing
attribute is an AttributeError. -/
def delattrMask (n : Node) : Except PyErr Node :=
  match alook n.params maskName with
  | some _ => .ok { n with params := adel n.params maskName }
  | none =>
      match alook n.buffers maskName with
      | some _ => .ok { n with buffers := adel n.buffers maskName }
      | none => .error .attributeError

/-- The body of the `squash_mask` loop (lines 181-192) for one group:
remove the weight transform keeping its output as the permanent weight
(`leave_parametrized=True`), then the two dead conditional deletions, then
`delattr(module, 'mask')`. -/
def squashGroup (h : Heap) (model : Ref) (usePath : Bool)
    (g : MGroup) : Except PyErr Heap :=
  let mref? : Except PyErr (Option Ref) :=
    if usePath then
      match g.fqn with
      | none => .error .attributeError
      | some p => .ok (fqnToModule h model p)
    else .ok (some g.module)
  match mref? with
  | .error e => .error e
  | .ok none => .error .danglingRef
  | .ok (some mref) =>
      match hGet h mref with
      | none => .error .danglingRef
      | some m =>
          if m.parametrizations.isEmpty then .error .valueError
          else
            match m.weight with
            | none => .error .attributeError
            | some w =>
                let w1 := m.parametrizations.foldl (fun acc p => applyParametrization p acc) w
                let m1 := { m with weight := some w1, parametrizations := [] }
                let afterDead : Except PyErr Node :=
                  match dictAttrGet m1.params with
                  | some _ => .ok { m1 with params := adel m1.params maskName }
                  | none => .ok m1
                match afterDead with
                | .error e => .error e
                | .ok m2 =>
                    match delattrMask m2 with
                    | .error e => .error e
                    | .ok m3 => .ok (hSet h mref m3)

/-- The `squash_mask` loop over all module groups. -/
def squashAll (model : Ref) (usePath : Bool) :
    List MGroup → Heap → Except PyErr Heap
  | [], h => .ok h
  | g :: rest, h =>
      match squashGroup h model usePath g with
      | .error e => .error e
      | .ok h1 => squashAll model usePath rest h1

/-- An observable event of one `step` iteration: the non-fatal warning
for a manual-update module, or the invocation of the abstract
`update_mask` callback with the resolved module and the full
configuration map. -/
inductive StepEvent where
  | warn (c : ClassId)
  | invoke (m : Option Ref) (g : MGroup)
  deriving DecidableEq, Repr

/-- Resolution of a group's module at the top of a `step` iteration:
with use_path, `_fqn_to_module(self.model, config['fqn'])` — where a None
fqn crashes with an AttributeError (`None.split('.')`). -/
def resolveStep (h : Heap) (model : Ref) (usePath : Bool) (g : MGroup) :
    Except PyErr (Option Ref) :=
  if usePath then
    match g.fqn with
    | none => .error .attributeError
    | some p => .ok (fqnToModule h model p)
  else .ok (some g.module)

/-- The `step` loop over the module groups: warn and skip groups whose
resolved module has its exact type in NEEDS_MANUAL_UPDATE, otherwise call
the abstract `update_mask` callback (`cb`), which may mutate the heap. -/
def stepGroups (cb : Option Ref → MGroup → Heap → Heap) (model : Ref)
    (usePath : Bool) :
    List MGroup → Heap → List StepEvent → Except PyErr (Heap × List StepEvent)
  | [], h, evs => .ok (h, evs)
  | g :: rest, h, evs =>
      match resolveStep h model usePath g with
      | .error e => .error e
      | .ok mo =>
          let cls? :=
            match mo with
            | some r => (hGet h r).map (·.cls)
            | none => none
          match cls? with
          | some c =>
              if exactIn c NEEDS_MANUAL_UPDATE then
                stepGroups cb model usePath rest h (evs ++ [StepEvent.warn c.id])
              else
                stepGroups cb model usePath rest (cb mo g h) (evs ++ [StepEvent.invoke mo g])
          | none =>
              stepGroups cb model usePath rest (cb mo g h) (evs ++ [StepEvent.invoke mo g])

/-- `step(use_path)`: a no-op when the global `enable_mask_update` switch
is off, otherwise the per-group loop in registry order. -/
def step (cb : Option Ref → MGroup → Heap → Heap) (h : Heap) (p : Pruner)
    (usePath : Bool) : Except PyErr (Heap × List StepEvent) :=
  if ¬ p.enableMaskUpdate then .ok (h, [])
  else stepGroups cb p.model usePath p.moduleGroups h []

/-- All references occurring as a child anywhere in the heap. -/
def allChild (h : Heap) : List Ref :=
  h.flatMap (fun p => p.2.children.map (·.2))

/-- Well-formedness of the module tree used by the path resolver: heap
keys are unique, each module's child names are distinct (they are Python
dict keys) and contain no '.' (torch's `add_module` rejects such names). -/
def wfHeap (h : Heap) : Prop :=
  (h.map (·.1)).Nodup ∧
  ∀ p ∈ h, (p.2.children.map (·.1)).Nodup ∧ ∀ nc ∈ p.2.children, '.' ∉ nc.1

/-- Well-formedness of the object graph under a root, as produced by a
freshly constructed model: unique heap keys, every object is a child of
at most one parent, and the root is nobody's child. -/
def wfForest (h : Heap) (root : Ref) : Prop :=
  (h.map (·.1)).Nodup ∧ (allChild h).Nodup ∧ root ∉ allChild h

/-- The structural skeleton of the heap: everything module resolution
(`_fqn_to_module` and the `type(module)` tests of `step`) can observe.
A mask-mutating `update_mask` callback preserves it. -/
def skel (h : Heap) : List (Ref × PyCls × List (PStr × Ref)) :=
  h.map (fun p => (p.1, p.2.cls, p.2.children))

/-- The identity callback, standing for an `update_mask` override that
changes nothing. -/
def cbId : Option Ref → MGroup → Heap → Heap :=
  fun _ _ hh => hh

/-- Fixture: a fresh `nn.Linear(3, 2)`-like module. -/
def exLinear : Node :=
  ⟨⟨.nnLinear, [.nnLinear]⟩, some ⟨[2, 3], [1, 2, 3, 4, 5, 6]⟩, some ⟨[2], [5, 7]⟩,
   [], [], [], [], []⟩

/-- Fixture: a container root whose single child "lin" is `exLinear`. -/
def exRoot : Node :=
  ⟨⟨.custom 100, [.custom 100]⟩, none, none, [], [], [], [], [("lin".toList, 1)]⟩

/-- Fixture heap: the container at 0, the linear layer at 1. -/
def exH : Heap := [(0, exRoot), (1, exLinear)]

/-- Fixture: the module group `prepare` builds for `exLinear`. -/
def exGroupLin : MGroup := ⟨1, some "lin".toList, none, []⟩

/-- Fixture: a pruner right after `__init__` with empty defaults. -/
def p0 : Pruner := ⟨⟨none, []⟩, [], true, 0, true⟩

/-- Fixture: a pruner holding the linear group with the global
mask-update switch disabled. -/
def pDis : Pruner := ⟨⟨none, []⟩, [exGroupLin], false, 0, true⟩

/-- Fixture: the same pruner with the switch enabled. -/
def pEn : Pruner := ⟨⟨none, []⟩, [exGroupLin], true, 0, true⟩

/-- Fixture: a fresh `nn.BatchNorm2d(2)`-like module. -/
def exBN : Node :=
  ⟨⟨.nnBatchNorm2d, [.nnBatchNorm2d]⟩, some ⟨[2], [1, 1]⟩, none, [], [], [], [], []⟩

/-- Fixture: a container root whose single child "bn" is `exBN`. -/
def exRootBN : Node :=
  ⟨⟨.custom 100, [.custom 100]⟩, none, none, [], [], [], [], [("bn".toList, 1)]⟩

/-- Fixture heap for auto-discovery over a model containing a
BatchNorm2d layer. -/
def exHBN : Heap := [(0, exRootBN), (1, exBN)]

/-- Fixture: a module whose class is a strict subclass of `nn.Linear`
(exact type in neither fixed set, but `isinstance` of a supported kind). -/
def exSubLin : Node :=
  ⟨⟨.custom 0, [.custom 0, .nnLinear]⟩, some ⟨[2, 3], [1, 2, 3, 4, 5, 6]⟩, none,
   [], [], [], [], []⟩

/-- Fixture heap holding only the `nn.Linear` strict subclass. -/
def exHSub : Heap := [(7, exSubLin)]

/-- Fixture: a module group naming the `nn.Linear` strict subclass. -/
def exGroupSub : MGroup := ⟨7, none, none, []⟩

/-- Fixture: a module whose class is a strict subclass of
`nn.BatchNorm2d`. -/
def exSubBN : Node :=
  ⟨⟨.custom 1, [.custom 1, .nnBatchNorm2d]⟩, some ⟨[2], [3, 4]⟩, none,
   [], [], [], [], []⟩

/-- Fixture heap holding only the `nn.BatchNorm2d` strict subclass. -/
def exHSubBN : Heap := [(8, exSubBN)]

/-- Fixture: a module group naming the `nn.BatchNorm2d` strict
subclass. -/
def exGroupSubBN : MGroup := ⟨8, none, none, []⟩

/-- Fixture: a pruner holding only the BatchNorm2d-subclass group, switch
enabled. -/
def pSubBN : Pruner := ⟨⟨none, []⟩, [exGroupSubBN], true, 8, true⟩

/-- Fixture heap with a floating linear module at 9 that is not reachable
from the model root 0. -/
def exHFloat : Heap := [(0, exRoot), (1, exLinear), (9, exLinear)]

/-- Fixture: a module of a custom class unrelated to any torch kind. -/
def exCustom : Node :=
  ⟨⟨.custom 5, [.custom 5]⟩, some ⟨[2, 3], [0, 0, 0, 0, 0, 0]⟩, none, [], [], [], [], []⟩

/-- Fixture heap holding only the unrelated custom module. -/
def exHCustom : Heap := [(4, exCustom)]

/-- Fixture: a module group naming the unrelated custom module. -/
def exGroupCustom : MGroup := ⟨4, none, none, []⟩

/-- The heap produced by running `_prepare` on the single linear-layer
group of the fixture model. -/
def c1H : Heap := (prepGroup true exH 0 false exGroupLin).toOption.getD []

/-- The heap produced by running `_prepare` on the BatchNorm2d-subclass
fixture. -/
def c10H : Heap := (prepGroup true exHSubBN 8 false exGroupSubBN).toOption.getD []

/-- The heap produced by squashing the prepared linear-layer fixture. -/
def c4H2 : Heap := (squashGroup c1H 0 false exGroupLin).toOption.getD []

/-- The auto-discovery decision for one scanned child: its exact type is
in the supported set (it gets registered). -/
def supP (h : Heap) (nc : PStr × Ref) : Bool :=
  match hGet h nc.2 with
  | some n => exactIn n.cls SUPPORTED_MODULES
  | none => false

/-- The auto-discovery decision for one scanned child: its exact type is
not in the supported set (it gets pushed onto the traversal stack). -/
def pushP (h : Heap) (nc : PStr × Ref) : Bool :=
  match hGet h nc.2 with
  | some n => !(exactIn n.cls SUPPORTED_MODULES)
  | none => false


theorem alook_aset_self {κ α : Type} [DecidableEq κ] (l : List (κ × α)) (k : κ) (v : α) :
    alook (aset l k v) k = some v := by
  induction l with
  | nil => simp [aset, alook]
  | cons p rest ih =>
      obtain ⟨k0, v0⟩ := p
      by_cases hk : k = k0
      · simp [aset, hk, alook]
      · simp [aset, hk, alook, ih]

theorem alook_aset_ne {κ α : Type} [DecidableEq κ] (l : List (κ × α)) (k k' : κ) (v : α)
    (hne : k' ≠ k) : alook (aset l k v) k' = alook l k' := by
  induction l with
  | nil => simp [aset, alook, hne]
  | cons p rest ih =>
      obtain ⟨k0, v0⟩ := p
      by_cases hk : k = k0
      · subst hk
        simp [aset, alook, hne]
      · by_cases hk' : k' = k0
        · simp [aset, hk, alook, hk']
        · simp [aset, hk, alook, hk', ih]

theorem adel_aset_absent {κ α : Type} [DecidableEq κ] (l : List (κ × α)) (k : κ) (v : α)
    (habs : alook l k = none) : adel (aset l k v) k = l := by
  induction l with
  | nil => simp [aset, adel]
  | cons p rest ih =>
      obtain ⟨k0, v0⟩ := p
      have hk : k ≠ k0 := by
        intro hcontra
        rw [alook, if_pos hcontra] at habs
        exact Option.noConfusion habs
      rw [alook, if_neg hk] at habs
      simp [aset, hk, adel, ih habs]

theorem alook_mem {κ α : Type} [DecidableEq κ] (l : List (κ × α)) (k : κ) (v : α)
    (hl : alook l k = some v) : (k, v) ∈ l := by
  induction l with
  | nil => simp [alook] at hl
  | cons p rest ih =>
      obtain ⟨k0, v0⟩ := p
      by_cases hk : k = k0
      · rw [alook, if_pos hk] at hl
        obtain rfl := Option.some.inj hl
        simp [hk]
      · rw [alook, if_neg hk] at hl
        exact List.mem_cons_of_mem _ (ih hl)

theorem alook_of_nodup_mem {κ α : Type} [DecidableEq κ] (l : List (κ × α)) (k : κ) (v : α)
    (hnd : (l.map (·.1)).Nodup) (hmem : (k, v) ∈ l) : alook l k = some v := by
  induction l with
  | nil => simp at hmem
  | cons p rest ih =>
      obtain ⟨k0, v0⟩ := p
      simp only [List.map_cons, List.nodup_cons] at hnd
      rcases List.mem_cons.mp hmem with heq | htail
      · obtain ⟨rfl, rfl⟩ := Prod.mk.injEq .. ▸ heq
        · simp [alook]
      · have hk : k ≠ k0 := by
          rintro rfl
          exact hnd.1 (List.mem_map.mpr ⟨(k, v), htail, rfl⟩)
        rw [alook, if_neg hk]
        exact ih hnd.2 htail

theorem hGet_hSet_self (h : Heap) (r : Ref) (m n : Node) (hr : hGet h r = some m) :
    hGet (hSet h r n) r = some n := by
  induction h with
  | nil => simp [hGet, alook] at hr
  | cons p rest ih =>
      obtain ⟨r0, n0⟩ := p
      by_cases hk : r = r0
      · subst hk
        have hstep : hSet ((r, n0) :: rest) r n = (r, n) :: hSet rest r n := by
          simp [hSet]
        rw [hGet, hstep, alook, if_pos rfl]
      · have hne0 : r0 ≠ r := fun hcontra => hk hcontra.symm
        rw [hGet, alook, if_neg hk] at hr
        simp only [hSet, List.map_cons, if_neg hne0]
        rw [hGet, alook, if_neg hk]
        exact ih hr

theorem getattrMask_split (m : Node) (hm : getattrMask m = none) :
    alook m.params maskName = none ∧ alook m.buffers maskName = none := by
  unfold getattrMask at hm
  cases hp : alook m.params maskName with
  | some p => rw [hp] at hm; exact Option.noConfusion hm
  | none => rw [hp] at hm; exact ⟨rfl, hm⟩

theorem getattrMask_addMask (m : Node) (v : Tensor) (hm : getattrMask m = none) :
    getattrMask { m with buffers := aset m.buffers maskName v } = some v := by
  obtain ⟨hp, _⟩ := getattrMask_split m hm
  unfold getattrMask
  simp only [hp, alook_aset_self]

theorem prepGroup_structural (pb : Bool) (h : Heap) (model : Ref) (g : MGroup)
    (m : Node) (w : Tensor) (o : Nat)
    (hres : hGet h g.module = some m)
    (hmask : getattrMask m = none)
    (hw : m.weight = some w) (hsh : w.shape0 = some o)
    (hz : instOf m.cls NEEDS_ZEROS = false)
    (hs : instOf m.cls SUPPORTED_MODULES = true) :
    prepGroup pb h model false g = .ok (hSet h g.module
      { cls := m.cls, weight := m.weight,
        bias := none,
        params := (match m.bias with
                   | some b => aset m.params biasName (nnParameter b.detach)
                   | none => m.params),
        buffers := aset m.buffers maskName (scalarTensor o),
        parametrizations := m.parametrizations ++
          [mkParametrization (g.parametrization.getD PKind.pruning) (scalarTensor o)],
        hooks := (m.hooks ++ [Hook.activationReconstruction]) ++ [Hook.biasHook pb],
        children := m.children }) := by
  obtain ⟨hp, _⟩ := getattrMask_split m hmask
  unfold prepGroup
  simp only [Bool.false_eq_true, if_false, hres, hmask, Option.isNone_none, if_true, hw, hsh]
  simp only [getattrMask, hp, alook_aset_self, hz, hs]
  cases hb : m.bias <;> simp [hb]

theorem prepGroup_zeroes (pb : Bool) (h : Heap) (model : Ref) (g : MGroup)
    (m : Node) (w : Tensor) (o : Nat)
    (hres : hGet h g.module = some m)
    (hmask : getattrMask m = none)
    (hw : m.weight = some w) (hsh : w.shape0 = some o)
    (hz : instOf m.cls NEEDS_ZEROS = true) :
    prepGroup pb h model false g = .ok (hSet h g.module
      { cls := m.cls, weight := m.weight,
        bias := none,
        params := (match m.bias with
                   | some b => aset m.params biasName (nnParameter b.detach)
                   | none => m.params),
        buffers := aset m.buffers maskName (scalarTensor o),
        parametrizations := m.parametrizations ++
          [mkParametrization (g.parametrization.getD PKind.zeroes) (scalarTensor o)],
        hooks := m.hooks ++ [Hook.biasHook pb],
        children := m.children }) := by
  obtain ⟨hp, _⟩ := getattrMask_split m hmask
  unfold prepGroup
  simp only [Bool.false_eq_true, if_false, hres, hmask, Option.isNone_none, if_true, hw, hsh]
  simp only [getattrMask, hp, alook_aset_self, hz]
  cases hb : m.bias <;> simp [hb]

theorem prepGroup_unsupported (pb : Bool) (h : Heap) (model : Ref) (g : MGroup)
    (m : Node) (w : Tensor) (o : Nat)
    (hres : hGet h g.module = some m)
    (hmask : getattrMask m = none)
    (hw : m.weight = some w) (hsh : w.shape0 = some o)
    (hz : instOf m.cls NEEDS_ZEROS = false)
    (hs : instOf m.cls SUPPORTED_MODULES = false) :
    prepGroup pb h model false g = .error .notImplementedError := by
  obtain ⟨hp, _⟩ := getattrMask_split m hmask
  unfold prepGroup
  simp only [Bool.false_eq_true, if_false, hres, hmask, Option.isNone_none, if_true, hw, hsh]
  simp only [getattrMask, hp, alook_aset_self, hz, hs]
  simp

/-- C5: with the global switch disabled, `step` is a no-op. -/
theorem c5_step_disabled_noop (cb : Option Ref → MGroup → Heap → Heap)
    (h : Heap) (p : Pruner) (usePath : Bool)
    (hdis : p.enableMaskUpdate = false) :
    step cb h p usePath = .ok (h, []) := by
  simp [step, hdis]

theorem c5_witness :
    pDis.enableMaskUpdate = false ∧ step cbId exH pDis true = .ok (exH, []) :=
  ⟨rfl, c5_step_disabled_noop cbId exH pDis true rfl⟩

/-- C1 counterexample: on the fresh linear layer with weight shape [2,3],
the mask buffer created by `_prepare` is `torch.tensor(2)` — the
zero-dimensional scalar holding the count — and not a tensor of shape [2]
with every unit marked retained, as the claim states. -/
theorem c1_counterexample :
    ((prepGroup true exH 0 false exGroupLin).toOption.bind
        (fun h' => (hGet h' 1).bind getattrMask)) = some (scalarTensor 2) ∧
      ¬ ((scalarTensor 2).shape = [2] ∧ ∀ x ∈ (scalarTensor 2).data, x = 1) := by
  decide

/-- C1 (amended): after `_prepare`, a module in a group (exact type not in
the needs-manual-update set) that had no mask buffer carries a mask buffer
equal to the zero-dimensional scalar tensor holding its pre-pruning
output-unit count `weight.shape[0]`; the transform freshly built from it
starts with an empty pruned set, so every unit is retained. -/
theorem c1_mask_is_scalar_count (pb : Bool) (h : Heap) (model : Ref) (g : MGroup)
    (m : Node) (w : Tensor) (o : Nat) (h' : Heap)
    (hres : hGet h g.module = some m)
    (hman : exactIn m.cls NEEDS_MANUAL_UPDATE = false)
    (hmask : getattrMask m = none)
    (hw : m.weight = some w) (hsh : w.shape0 = some o)
    (hok : prepGroup pb h model false g = .ok h') :
    ∃ n', hGet h' g.module = some n' ∧ getattrMask n' = some (scalarTensor o) := by
  obtain ⟨hp, _⟩ := getattrMask_split m hmask
  cases hz : instOf m.cls NEEDS_ZEROS with
  | true =>
      rw [prepGroup_zeroes pb h model g m w o hres hmask hw hsh hz] at hok
      obtain rfl := Except.ok.inj hok
      refine ⟨_, hGet_hSet_self h g.module m _ hres, ?_⟩
      cases hb : m.bias with
      | some b =>
          simp [getattrMask, hb,
            alook_aset_ne m.params biasName maskName _ (by decide), hp, alook_aset_self]
      | none => simp [getattrMask, hb, hp, alook_aset_self]
  | false =>
      cases hs : instOf m.cls SUPPORTED_MODULES with
      | true =>
          rw [prepGroup_structural pb h model g m w o hres hmask hw hsh hz hs] at hok
          obtain rfl := Except.ok.inj hok
          refine ⟨_, hGet_hSet_self h g.module m _ hres, ?_⟩
          cases hb : m.bias with
          | some b =>
              simp [getattrMask, hb,
                alook_aset_ne m.params biasName maskName _ (by decide), hp, alook_aset_self]
          | none => simp [getattrMask, hb, hp, alook_aset_self]
      | false =>
          rw [prepGroup_unsupported pb h model g m w o hres hmask hw hsh hz hs] at hok
          exact Except.noConfusion hok

theorem c1_witness :
    hGet exH exGroupLin.module = some exLinear ∧
    exactIn exLinear.cls NEEDS_MANUAL_UPDATE = false ∧
    getattrMask exLinear = none ∧
    exLinear.weight = some (Tensor.mk [2, 3] [1, 2, 3, 4, 5, 6]) ∧
    (Tensor.mk [2, 3] [1, 2, 3, 4, 5, 6]).shape0 = some 2 ∧
    prepGroup true exH 0 false exGroupLin = .ok c1H ∧
    ∃ n', hGet c1H exGroupLin.module = some n' ∧ getattrMask n' = some (scalarTensor 2) :=
  ⟨by decide, by decide, by decide, by decide, by decide, by rfl,
   c1_mask_is_scalar_count true exH 0 exGroupLin exLinear (Tensor.mk [2, 3] [1, 2, 3, 4, 5, 6])
     2 c1H (by decide) (by decide) (by decide) (by decide) (by decide) (by rfl)⟩

theorem instOf_zeros_sub_supported (c : PyCls) (hz : instOf c NEEDS_ZEROS = true) :
    instOf c SUPPORTED_MODULES = true := by
  simp only [instOf, NEEDS_ZEROS, List.any_cons, List.any_nil, Bool.or_false] at hz
  simp only [instOf, SUPPORTED_MODULES, List.any_cons, List.any_nil, hz,
    Bool.or_true, Bool.or_false]

/-- C7 counterexample: a strict subclass of `nn.Linear` has its exact type
in neither `NEEDS_ZEROS` nor `SUPPORTED_MODULES`, so under the claim it
takes the structural path and must fail fatally; `_prepare` nevertheless
succeeds, because the code checks membership with the subclass-inclusive
`isinstance`, not the exact type. -/
theorem c7_counterexample :
    exactIn exSubLin.cls NEEDS_ZEROS = false ∧
    exactIn exSubLin.cls SUPPORTED_MODULES = false ∧
    isOkE (prepGroup true exHSub 0 false exGroupSub) = true := by
  decide

/-- C7 (amended): during `_prepare`, a module that is not an instance
(subclass-inclusively) of any supported kind — such a module necessarily
also fails the needs-zeroing `isinstance` test and takes the structural
path — makes preparation fail fatally with the unsupported-module error. -/
theorem c7_unsupported_fails (pb : Bool) (h : Heap) (model : Ref) (g : MGroup)
    (m : Node) (w : Tensor) (o : Nat)
    (hres : hGet h g.module = some m)
    (hsup : instOf m.cls SUPPORTED_MODULES = false)
    (hmask : getattrMask m = none)
    (hw : m.weight = some w) (hsh : w.shape0 = some o) :
    prepGroup pb h model false g = .error PyErr.notImplementedError := by
  have hz : instOf m.cls NEEDS_ZEROS = false := by
    cases hz : instOf m.cls NEEDS_ZEROS with
    | false => rfl
    | true => rw [instOf_zeros_sub_supported m.cls hz] at hsup; exact Bool.noConfusion hsup
  exact prepGroup_unsupported pb h model g m w o hres hmask hw hsh hz hsup

theorem c7_witness :
    hGet exHCustom exGroupCustom.module = some exCustom ∧
    instOf exCustom.cls SUPPORTED_MODULES = false ∧
    getattrMask exCustom = none ∧
    exCustom.weight = some (Tensor.mk [2, 3] [0, 0, 0, 0, 0, 0]) ∧
    (Tensor.mk [2, 3] [0, 0, 0, 0, 0, 0]).shape0 = some 2 ∧
    prepGroup true exHCustom 0 false exGroupCustom = .error PyErr.notImplementedError :=
  ⟨by decide, by decide, by decide, by decide, by decide,
   c7_unsupported_fails true exHCustom 0 exGroupCustom exCustom
     (Tensor.mk [2, 3] [0, 0, 0, 0, 0, 0]) 2 (by decide) (by decide) (by decide)
     (by decide) (by decide)⟩

/-- C9: during `_prepare`, a module owning a bias has it moved into the
secondary `_bias` parameter slot (value preserved through `detach`, and
non-trainable per the spec-modelled nn.Parameter) while the primary bias
reference becomes None; and every successfully prepared module, with or
without bias, receives the bias-reconciliation forward hook closing over
the `prune_bias` flag. -/
theorem c9_bias_detached_hook_installed (pb : Bool) (h : Heap) (model : Ref)
    (g : MGroup) (m : Node) (w : Tensor) (o : Nat) (h' : Heap)
    (hres : hGet h g.module = some m)
    (hmask : getattrMask m = none)
    (hw : m.weight = some w) (hsh : w.shape0 = some o)
    (hok : prepGroup pb h model false g = .ok h') :
    ∃ n', hGet h' g.module = some n' ∧
      Hook.biasHook pb ∈ n'.hooks ∧
      ∀ b, m.bias = some b →
        n'.bias = none ∧ alook n'.params biasName = some (nnParameter b.detach) := by
  cases hz : instOf m.cls NEEDS_ZEROS with
  | true =>
      rw [prepGroup_zeroes pb h model g m w o hres hmask hw hsh hz] at hok
      obtain rfl := Except.ok.inj hok
      refine ⟨_, hGet_hSet_self h g.module m _ hres, by simp, ?_⟩
      intro b hb
      simp [hb, alook_aset_self]
  | false =>
      cases hs : instOf m.cls SUPPORTED_MODULES with
      | true =>
          rw [prepGroup_structural pb h model g m w o hres hmask hw hsh hz hs] at hok
          obtain rfl := Except.ok.inj hok
          refine ⟨_, hGet_hSet_self h g.module m _ hres, by simp, ?_⟩
          intro b hb
          simp [hb, alook_aset_self]
      | false =>
          rw [prepGroup_unsupported pb h model g m w o hres hmask hw hsh hz hs] at hok
          exact Except.noConfusion hok

theorem c9_witness :
    hGet exH exGroupLin.module = some exLinear ∧
    getattrMask exLinear = none ∧
    exLinear.weight = some (Tensor.mk [2, 3] [1, 2, 3, 4, 5, 6]) ∧
    (Tensor.mk [2, 3] [1, 2, 3, 4, 5, 6]).shape0 = some 2 ∧
    prepGroup true exH 0 false exGroupLin = .ok c1H ∧
    ∃ n', hGet c1H exGroupLin.module = some n' ∧
      Hook.biasHook true ∈ n'.hooks ∧
      ∀ b, exLinear.bias = some b →
        n'.bias = none ∧ alook n'.params biasName = some (nnParameter b.detach) :=
  ⟨by decide, by decide, by decide, by decide, by rfl,
   c9_bias_detached_hook_installed true exH 0 exGroupLin exLinear
     (Tensor.mk [2, 3] [1, 2, 3, 4, 5, 6]) 2 c1H (by decide) (by decide) (by decide)
     (by decide) (by rfl)⟩

/-- C10: `_prepare` dispatches on needs-zeroing membership with the
subclass-inclusive `isinstance` while `step` tests needs-manual-update
membership with the exact type, so a module whose class is a strict
subclass of `nn.BatchNorm2d` (the kind in both sets) receives the zeroing
transform at prepare and is nevertheless not skipped by `step`, which
invokes the automatic mask-recomputation callback on it with its full
configuration map. -/
theorem c10_subclass_dispatch (pb : Bool) (h : Heap) (model : Ref) (g : MGroup)
    (m : Node) (w : Tensor) (o : Nat) (p : Pruner)
    (cb : Option Ref → MGroup → Heap → Heap)
    (hres : hGet h g.module = some m)
    (hmro : ClassId.nnBatchNorm2d ∈ m.cls.mro)
    (hstrict : m.cls.id ≠ ClassId.nnBatchNorm2d)
    (hmask : getattrMask m = none)
    (hw : m.weight = some w) (hsh : w.shape0 = some o)
    (hparam : g.parametrization = none)
    (hpg : p.moduleGroups = [g]) (hen : p.enableMaskUpdate = true) :
    ∃ h', prepGroup pb h model false g = .ok h' ∧
      (∃ n', hGet h' g.module = some n' ∧
        n'.parametrizations =
          m.parametrizations ++ [Parametrization.mk PKind.zeroes ⟨o, []⟩]) ∧
      step cb h' p false =
        .ok (cb (some g.module) g h', [StepEvent.invoke (some g.module) g]) := by
  have hz : instOf m.cls NEEDS_ZEROS = true := by
    simp only [instOf, NEEDS_ZEROS, List.any_cons, List.any_nil, Bool.or_false,
      List.elem_eq_true_of_mem hmro]
  have hprep := prepGroup_zeroes pb h model g m w o hres hmask hw hsh hz
  refine ⟨_, hprep, ⟨_, hGet_hSet_self h g.module m _ hres, ?_⟩, ?_⟩
  · simp [hparam, mkParametrization, scalarTensor]
  · have hman : exactIn m.cls NEEDS_MANUAL_UPDATE = false := by
      simp [exactIn, NEEDS_MANUAL_UPDATE, hstrict]
    have hget := hGet_hSet_self h g.module m
      { cls := m.cls, weight := m.weight, bias := none,
        params := (match m.bias with
                   | some b => aset m.params biasName (nnParameter b.detach)
                   | none => m.params),
        buffers := aset m.buffers maskName (scalarTensor o),
        parametrizations := m.parametrizations ++
          [mkParametrization (g.parametrization.getD PKind.zeroes) (scalarTensor o)],
        hooks := m.hooks ++ [Hook.biasHook pb],
        children := m.children } hres
    simp [step, hen, hpg, stepGroups, resolveStep, hget, hman]

theorem c10_witness :
    hGet exHSubBN exGroupSubBN.module = some exSubBN ∧
    ClassId.nnBatchNorm2d ∈ exSubBN.cls.mro ∧
    exSubBN.cls.id ≠ ClassId.nnBatchNorm2d ∧
    getattrMask exSubBN = none ∧
    exSubBN.weight = some (Tensor.mk [2] [3, 4]) ∧
    (Tensor.mk [2] [3, 4]).shape0 = some 2 ∧
    exGroupSubBN.parametrization = none ∧
    pSubBN.moduleGroups = [exGroupSubBN] ∧
    pSubBN.enableMaskUpdate = true ∧
    ∃ h', prepGroup true exHSubBN 8 false exGroupSubBN = .ok h' ∧
      (∃ n', hGet h' exGroupSubBN.module = some n' ∧
        n'.parametrizations =
          exSubBN.parametrizations ++ [Parametrization.mk PKind.zeroes ⟨2, []⟩]) ∧
      step cbId h' pSubBN false =
        .ok (cbId (some exGroupSubBN.module) exGroupSubBN h',
             [StepEvent.invoke (some exGroupSubBN.module) exGroupSubBN]) :=
  ⟨by decide, by decide, by decide, by decide, by decide, by decide, by decide,
   by decide, by decide,
   c10_subclass_dispatch true exHSubBN 8 exGroupSubBN exSubBN (Tensor.mk [2] [3, 4])
     2 pSubBN cbId (by decide) (by decide) (by decide) (by decide) (by decide)
     (by decide) (by decide) (by decide) (by decide)⟩

/-- C8 counterexample: the configured module at reference 9 is not
resolvable to any dotted path inside the model rooted at 0
(`_module_to_fqn` returns not-found), yet `prepare` completes without
raising any error, contrary to the claim that the configuration error is
fatal at that call. -/
theorem c8_counterexample :
    moduleToFqn (exHFloat.length + 1) exHFloat 0 9 [] = none ∧
    isOkE (prepare exHFloat p0 0 (some [ConfigEntry.bare 9]) true) = true := by
  decide

/-- C8 (amended): when a configured module cannot be resolved to a path,
`prepare` does not raise; it silently stores a None fqn in the group and
completes, and the failure is deferred: the next fqn-based resolution,
`step` with use_path, crashes with an AttributeError
(`None.split('.')`). -/
theorem c8_unresolvable_deferred (h : Heap) (p : Pruner) (model : Ref) (pb : Bool)
    (mref : Ref) (m : Node) (w : Tensor) (o : Nat)
    (cb : Option Ref → MGroup → Heap → Heap)
    (hpg : p.moduleGroups = [])
    (hres : hGet h mref = some m)
    (hfqn : moduleToFqn (h.length + 1) h model mref [] = none)
    (hmask : getattrMask m = none)
    (hw : m.weight = some w) (hsh : w.shape0 = some o)
    (hz : instOf m.cls NEEDS_ZEROS = false)
    (hs : instOf m.cls SUPPORTED_MODULES = true)
    (hen : p.enableMaskUpdate = true) :
    ∃ h' p', prepare h p model (some [ConfigEntry.bare mref]) pb = .ok (h', p', []) ∧
      p'.moduleGroups.map (·.fqn) = [none] ∧
      step cb h' p' true = .error PyErr.attributeError := by
  have hgroup : buildGroup h model p.defaults (ConfigEntry.bare mref) =
      ⟨mref, none, p.defaults.parametrization, p.defaults.extra⟩ := by
    simp [buildGroup, hfqn]
  have hprep := prepGroup_structural pb h model
    ⟨mref, none, p.defaults.parametrization, p.defaults.extra⟩ m w o hres hmask hw hsh hz hs
  obtain ⟨h1, hprep1⟩ : ∃ h1, prepGroup pb h model false
      ⟨mref, none, p.defaults.parametrization, p.defaults.extra⟩ = .ok h1 := ⟨_, hprep⟩
  refine ⟨h1, { p with model := model, pruneBias := pb, moduleGroups := [⟨mref, none, p.defaults.parametrization, p.defaults.extra⟩] }, ?_, ?_, ?_⟩
  · simp only [prepare, hpg, List.map_cons, List.map_nil, hgroup, List.nil_append,
      prepAll, hprep1]
  · simp
  · simp [step, hen, stepGroups, resolveStep]

theorem c8_witness :
    p0.moduleGroups = [] ∧
    hGet exHFloat 9 = some exLinear ∧
    moduleToFqn (exHFloat.length + 1) exHFloat 0 9 [] = none ∧
    getattrMask exLinear = none ∧
    exLinear.weight = some (Tensor.mk [2, 3] [1, 2, 3, 4, 5, 6]) ∧
    (Tensor.mk [2, 3] [1, 2, 3, 4, 5, 6]).shape0 = some 2 ∧
    instOf exLinear.cls NEEDS_ZEROS = false ∧
    instOf exLinear.cls SUPPORTED_MODULES = true ∧
    p0.enableMaskUpdate = true ∧
    ∃ h' p', prepare exHFloat p0 0 (some [ConfigEntry.bare 9]) true = .ok (h', p', []) ∧
      p'.moduleGroups.map (·.fqn) = [none] ∧
      step cbId h' p' true = .error PyErr.attributeError :=
  ⟨by decide, by decide, by decide, by decide, by decide, by decide, by decide,
   by decide, by decide,
   c8_unresolvable_deferred exHFloat p0 0 true 9 exLinear
     (Tensor.mk [2, 3] [1, 2, 3, 4, 5, 6]) 2 cbId (by decide) (by decide) (by decide)
     (by decide) (by decide) (by decide) (by decide) (by decide) (by decide)⟩

theorem range_flatMap_slices (d : List Int) (r : Nat) :
    ∀ n, n * r ≤ d.length →
      (List.range n).flatMap (fun i => (d.drop (i * r)).take r) = d.take (n * r) := by
  intro n
  induction n with
  | zero => simp
  | succ k ih =>
      intro hle
      have hk : k * r ≤ d.length := le_trans (by nlinarith) hle
      rw [List.range_succ, List.flatMap_append, ih hk]
      simp only [List.flatMap_cons, List.flatMap_nil, List.append_nil]
      rw [show (k + 1) * r = k * r + r by ring, List.take_add]

theorem pruneForward_nil (t : Tensor) (o : Nat) (sr : List Nat)
    (hsh : t.shape = o :: sr) (hwf : wfTensor t) : pruneForward [] t = t := by
  obtain ⟨ts, td⟩ := t
  simp only at hsh
  subst hsh
  unfold wfTensor at hwf
  simp only [List.prod_cons] at hwf
  unfold pruneForward
  simp only [Tensor.rowLen, List.tail_cons, List.headD_cons]
  have hlen : o * sr.prod ≤ td.length := le_of_eq hwf.symm
  have hfil : List.filter (fun i => decide (i ∉ ([] : List Nat))) (List.range o)
      = List.range o := by
    simp
  rw [hfil, List.length_range, range_flatMap_slices td sr.prod o hlen]
  simp [← hwf]

theorem zeroForward_nil (t : Tensor) (o : Nat) (sr : List Nat)
    (hsh : t.shape = o :: sr) (hwf : wfTensor t) : zeroForward [] t = t := by
  obtain ⟨ts, td⟩ := t
  simp only at hsh
  subst hsh
  unfold wfTensor at hwf
  simp only [List.prod_cons] at hwf
  unfold zeroForward
  simp only [Tensor.rowLen, List.tail_cons, List.headD_cons]
  have hlen : o * sr.prod ≤ td.length := le_of_eq hwf.symm
  have hfil : ((List.range o).flatMap (fun i =>
      if i ∈ ([] : List Nat) then List.replicate sr.prod (0 : Int)
      else (td.drop (i * sr.prod)).take sr.prod))
      = (List.range o).flatMap (fun i => (td.drop (i * sr.prod)).take sr.prod) := by
    simp
  rw [hfil, range_flatMap_slices td sr.prod o hlen]
  simp [← hwf]

theorem squashGroup_spec (h : Heap) (model : Ref) (g : MGroup) (n : Node)
    (pz : Parametrization) (w mv : Tensor)
    (hget : hGet h g.module = some n)
    (hpz : n.parametrizations = [pz])
    (hw : n.weight = some w)
    (hpm : alook n.params maskName = none)
    (hbm : alook n.buffers maskName = some mv) :
    squashGroup h model false g = .ok (hSet h g.module
      { n with weight := some (applyParametrization pz w),
               parametrizations := [],
               buffers := adel n.buffers maskName }) := by
  unfold squashGroup
  simp only [Bool.false_eq_true, if_false, hget, hpz, List.isEmpty_cons, hw,
    List.foldl_cons, List.foldl_nil, dictAttrGet, delattrMask, hpm, hbm]

/-- C4 counterexample: prepare-then-squash on the untouched all-retained
mask of the linear layer reproduces the weight and removes mask and
transform, but does not reproduce the bias: the module's primary bias is
still None afterwards (the original values sit only in `_bias`), contrary
to the claimed round-trip of the bias values. -/
theorem c4_counterexample :
    prepGroup true exH 0 false exGroupLin = .ok c1H ∧
    squashGroup c1H 0 false exGroupLin = .ok c4H2 ∧
    exLinear.bias = some (Tensor.mk [2] [5, 7]) ∧
    (hGet c4H2 1).map (·.weight) = some (some (Tensor.mk [2, 3] [1, 2, 3, 4, 5, 6])) ∧
    (hGet c4H2 1).map (·.bias) = some none ∧
    ¬ (hGet c4H2 1).map (·.bias) = some (some (Tensor.mk [2] [5, 7])) := by
  refine ⟨by rfl, by rfl, by decide, by decide, by decide, by decide⟩

/-- C4 (amended): `_prepare` followed by `squash_mask` on an untouched
(all-retained) mask reproduces the original weight exactly, and leaves no
mask buffer in either the parameter or the buffer namespace and no weight
transform attached; but the primary bias is not restored — it remains
cleared, the original bias values surviving only in the secondary `_bias`
parameter slot. -/
theorem c4_squash_roundtrip (pb : Bool) (h : Heap) (model : Ref) (g : MGroup)
    (m : Node) (w : Tensor) (o : Nat) (sr : List Nat)
    (hres : hGet h g.module = some m)
    (hmask : getattrMask m = none)
    (hw : m.weight = some w) (hshape : w.shape = o :: sr) (hwf : wfTensor w)
    (hpz : m.parametrizations = [])
    (hparamd : g.parametrization = none)
    (hs : instOf m.cls SUPPORTED_MODULES = true) :
    ∃ h1 h2 n2, prepGroup pb h model false g = .ok h1 ∧
      squashGroup h1 model false g = .ok h2 ∧
      hGet h2 g.module = some n2 ∧
      n2.weight = some w ∧
      n2.parametrizations = [] ∧
      alook n2.params maskName = none ∧
      alook n2.buffers maskName = none ∧
      n2.bias = none ∧
      (∀ b, m.bias = some b → alook n2.params biasName = some (nnParameter b.detach)) := by
  obtain ⟨hp, hbuf⟩ := getattrMask_split m hmask
  have hsh : w.shape0 = some o := by
    obtain ⟨ws, wd⟩ := w
    simp only at hshape
    subst hshape
    rfl
  have hpm2 : ∀ ps : List (PStr × Param),
      alook ps maskName = none →
      alook (match m.bias with
             | some b => aset ps biasName (nnParameter b.detach)
             | none => ps) maskName = none := by
    intro ps hps
    cases hb : m.bias with
    | some b => rw [alook_aset_ne ps biasName maskName _ (by decide)]; exact hps
    | none => exact hps
  have hbself : alook (aset m.buffers maskName (scalarTensor o)) maskName
      = some (scalarTensor o) := alook_aset_self m.buffers maskName _
  have hbdel : adel (aset m.buffers maskName (scalarTensor o)) maskName = m.buffers :=
    adel_aset_absent m.buffers maskName _ hbuf
  cases hz : instOf m.cls NEEDS_ZEROS with
  | true =>
      have h1def := prepGroup_zeroes pb h model g m w o hres hmask hw hsh hz
      rw [hparamd] at h1def
      simp only [Option.getD_none] at h1def
      have hget1 := hGet_hSet_self h g.module m
        { cls := m.cls, weight := m.weight, bias := none,
          params := (match m.bias with
                     | some b => aset m.params biasName (nnParameter b.detach)
                     | none => m.params),
          buffers := aset m.buffers maskName (scalarTensor o),
          parametrizations := m.parametrizations ++
            [mkParametrization PKind.zeroes (scalarTensor o)],
          hooks := m.hooks ++ [Hook.biasHook pb],
          children := m.children } hres
      have hsq := squashGroup_spec (hSet h g.module _) model g _
        (mkParametrization PKind.zeroes (scalarTensor o)) w (scalarTensor o)
        hget1 (by simp [hpz]) hw (hpm2 m.params hp) hbself
      refine ⟨_, _, _, h1def, hsq, hGet_hSet_self _ g.module _ _ hget1, ?_, rfl, ?_, ?_, rfl, ?_⟩
      · have : applyParametrization (mkParametrization PKind.zeroes (scalarTensor o)) w = w := by
          simp [applyParametrization, mkParametrization, scalarTensor,
            zeroForward_nil w o sr hshape hwf]
        simp [this]
      · exact hpm2 m.params hp
      · simp [hbdel, hbuf]
      · intro b hb
        simp only [hb]
        exact alook_aset_self m.params biasName _
  | false =>
      have h1def := prepGroup_structural pb h model g m w o hres hmask hw hsh hz hs
      rw [hparamd] at h1def
      simp only [Option.getD_none] at h1def
      have hget1 := hGet_hSet_self h g.module m
        { cls := m.cls, weight := m.weight, bias := none,
          params := (match m.bias with
                     | some b => aset m.params biasName (nnParameter b.detach)
                     | none => m.params),
          buffers := aset m.buffers maskName (scalarTensor o),
          parametrizations := m.parametrizations ++
            [mkParametrization PKind.pruning (scalarTensor o)],
          hooks := (m.hooks ++ [Hook.activationReconstruction]) ++ [Hook.biasHook pb],
          children := m.children } hres
      have hsq := squashGroup_spec (hSet h g.module _) model g _
        (mkParametrization PKind.pruning (scalarTensor o)) w (scalarTensor o)
        hget1 (by simp [hpz]) hw (hpm2 m.params hp) hbself
      refine ⟨_, _, _, h1def, hsq, hGet_hSet_self _ g.module _ _ hget1, ?_, rfl, ?_, ?_, rfl, ?_⟩
      · have : applyParametrization (mkParametrization PKind.pruning (scalarTensor o)) w = w := by
          simp [applyParametrization, mkParametrization, scalarTensor,
            pruneForward_nil w o sr hshape hwf]
        simp [this]
      · exact hpm2 m.params hp
      · simp [hbdel, hbuf]
      · intro b hb
        simp only [hb]
        exact alook_aset_self m.params biasName _

theorem c4_witness :
    hGet exH exGroupLin.module = some exLinear ∧
    getattrMask exLinear = none ∧
    exLinear.weight = some (Tensor.mk [2, 3] [1, 2, 3, 4, 5, 6]) ∧
    (Tensor.mk [2, 3] [1, 2, 3, 4, 5, 6]).shape = 2 :: [3] ∧
    wfTensor (Tensor.mk [2, 3] [1, 2, 3, 4, 5, 6]) ∧
    exLinear.parametrizations = [] ∧
    exGroupLin.parametrization = none ∧
    instOf exLinear.cls SUPPORTED_MODULES = true ∧
    ∃ h1 h2 n2, prepGroup true exH 0 false exGroupLin = .ok h1 ∧
      squashGroup h1 0 false exGroupLin = .ok h2 ∧
      hGet h2 exGroupLin.module = some n2 ∧
      n2.weight = some (Tensor.mk [2, 3] [1, 2, 3, 4, 5, 6]) ∧
      n2.parametrizations = [] ∧
      alook n2.params maskName = none ∧
      alook n2.buffers maskName = none ∧
      n2.bias = none ∧
      (∀ b, exLinear.bias = some b →
        alook n2.params biasName = some (nnParameter b.detach)) :=
  ⟨by decide, by decide, by decide, by decide, by simp [wfTensor], by decide, by decide,
   by decide,
   c4_squash_roundtrip true exH 0 exGroupLin exLinear
     (Tensor.mk [2, 3] [1, 2, 3, 4, 5, 6]) 2 [3] (by decide) (by decide) (by decide)
     (by decide) (by simp [wfTensor]) (by decide) (by decide) (by decide)⟩

theorem splitOnDot_ne_nil (s : PStr) : splitOnDot s ≠ [] := by
  cases s with
  | nil => simp [splitOnDot]
  | cons c rest =>
      unfold splitOnDot
      cases hs : splitOnDot rest with
      | nil => simp
      | cons w ws =>
          by_cases hc : c = '.'
          · simp [hc]
          · simp [hc]

theorem splitOnDot_noDot (a : PStr) (ha : '.' ∉ a) : splitOnDot a = [a] := by
  induction a with
  | nil => rfl
  | cons c rest ih =>
      have hc : c ≠ '.' := fun hcontra => ha (by simp [hcontra])
      have hrest : '.' ∉ rest := fun hcontra => ha (List.mem_cons_of_mem _ hcontra)
      unfold splitOnDot
      rw [ih hrest]
      simp [hc]

theorem splitOnDot_append (a b : PStr) (ha : '.' ∉ a) :
    splitOnDot (a ++ '.' :: b) = a :: splitOnDot b := by
  induction a with
  | nil =>
      obtain ⟨w, ws, hs⟩ := List.exists_cons_of_ne_nil (splitOnDot_ne_nil b)
      simp only [List.nil_append, splitOnDot, hs]
      simp
  | cons c rest ih =>
      have hc : c ≠ '.' := fun hcontra => ha (by simp [hcontra])
      have hrest : '.' ∉ rest := fun hcontra => ha (List.mem_cons_of_mem _ hcontra)
      rw [List.cons_append,
        show splitOnDot (c :: (rest ++ '.' :: b)) =
          (match splitOnDot (rest ++ '.' :: b) with
           | [] => [[]]
           | w :: ws => if c = '.' then [] :: w :: ws else (c :: w) :: ws) from rfl,
        ih hrest]
      simp [hc]

theorem splitOnDot_join (names : List PStr) (n0 : PStr) (h0 : '.' ∉ n0)
    (hns : ∀ n ∈ names, '.' ∉ n) :
    splitOnDot (n0 ++ names.flatMap (fun n => '.' :: n)) = n0 :: names := by
  induction names generalizing n0 with
  | nil => simp [splitOnDot_noDot n0 h0]
  | cons nm rest ih =>
      have hnm : '.' ∉ nm := hns nm (by simp)
      have hrest : ∀ n ∈ rest, '.' ∉ n := fun n hn => hns n (by simp [hn])
      rw [List.flatMap_cons, show ('.' :: nm) ++ rest.flatMap (fun n => '.' :: n)
          = '.' :: (nm ++ rest.flatMap (fun n => '.' :: n)) from rfl,
        splitOnDot_append n0 _ h0, ih nm hnm hrest]

theorem findSome_isSome_of_mem {α β : Type} (l : List α) (f : α → Option β) (x : α)
    (hx : x ∈ l) (hfx : (f x).isSome) : (l.findSome? f).isSome := by
  induction l with
  | nil => simp at hx
  | cons a rest ih =>
      rw [List.findSome?_cons]
      cases hfa : f a with
      | some b => simp
      | none =>
          rcases List.mem_cons.mp hx with rfl | htail
          · rw [hfa] at hfx
            simp at hfx
          · exact ih htail

theorem wfHeap_node (h : Heap) (hwf : wfHeap h) (r : Ref) (n : Node)
    (hr : hGet h r = some n) :
    (n.children.map (·.1)).Nodup ∧ ∀ nc ∈ n.children, '.' ∉ nc.1 :=
  hwf.2 (r, n) (alook_mem h r n hr)

theorem moduleToFqn_sound (h : Heap) (hwf : wfHeap h) :
    ∀ fuel cur layer pfx p,
      moduleToFqn fuel h cur layer pfx = some p →
      ∃ names, names ≠ [] ∧ (∀ n ∈ names, '.' ∉ n) ∧
        p = pfx ++ names.flatMap (fun n => '.' :: n) ∧
        walkChain h cur names = some layer := by
  intro fuel
  induction fuel with
  | zero => intro cur layer pfx p hcontra; exact absurd hcontra (by simp [moduleToFqn])
  | succ f ih =>
      intro cur layer pfx p hfind
      unfold moduleToFqn at hfind
      rcases hnode : hGet h cur with _ | n
      · simp only [childrenAt, hnode] at hfind
        simp at hfind
      · obtain ⟨hnd, hdot⟩ := wfHeap_node h hwf cur n hnode
        simp only [childrenAt, hnode] at hfind
        suffices haux : ∀ cs : List (PStr × Ref), (∀ nc ∈ cs, nc ∈ n.children) →
            cs.findSome? (fun nc =>
              if nc.2 = layer then some (pfx ++ '.' :: nc.1)
              else moduleToFqn f h nc.2 layer (pfx ++ '.' :: nc.1)) = some p →
            ∃ names, names ≠ [] ∧ (∀ nm ∈ names, '.' ∉ nm) ∧
              p = pfx ++ names.flatMap (fun nm => '.' :: nm) ∧
              walkChain h cur names = some layer from
          haux n.children (fun nc hnc => hnc) hfind
        intro cs
        induction cs with
        | nil => intro _ hcontra; simp at hcontra
        | cons nc rest ihcs =>
            intro hsub hfs
            have hlk : lookupChild h cur nc.1 = some nc.2 := by
              rw [lookupChild, childrenAt, hnode]
              exact alook_of_nodup_mem n.children nc.1 nc.2 hnd (hsub nc (by simp))
            rw [List.findSome?_cons] at hfs
            by_cases hlay : nc.2 = layer
            · rw [if_pos hlay] at hfs
              simp only [Option.some.injEq] at hfs
              subst hfs
              refine ⟨[nc.1], by simp, ?_, by simp, ?_⟩
              · intro nm hnm
                obtain rfl := List.mem_singleton.mp hnm
                exact hdot nc (hsub nc (by simp))
              · simp only [walkChain, hlk, hlay]
            · rw [if_neg hlay] at hfs
              cases hrec : moduleToFqn f h nc.2 layer (pfx ++ '.' :: nc.1) with
              | some q =>
                  rw [hrec] at hfs
                  simp only [Option.some.injEq] at hfs
                  subst hfs
                  obtain ⟨names', hne', hdots', hp', hwalk'⟩ :=
                    ih nc.2 layer (pfx ++ '.' :: nc.1) q hrec
                  refine ⟨nc.1 :: names', by simp, ?_, ?_, ?_⟩
                  · intro nm hnm
                    rcases List.mem_cons.mp hnm with rfl | htail
                    · exact hdot nc (hsub nc (by simp))
                    · exact hdots' nm htail
                  · rw [hp']
                    simp [List.flatMap_cons]
                  · simp only [walkChain, hlk]
                    exact hwalk'
              | none =>
                  rw [hrec] at hfs
                  exact ihcs (fun nc' hnc' => hsub nc' (List.mem_cons_of_mem _ hnc')) hfs

theorem moduleToFqn_complete (h : Heap) :
    ∀ names fuel cur layer pfx,
      names ≠ [] → names.length < fuel →
      walkChain h cur names = some layer →
      ∃ p, moduleToFqn fuel h cur layer pfx = some p := by
  intro names
  induction names with
  | nil => intro fuel cur layer pfx hne; exact absurd rfl hne
  | cons nm rest ih =>
      intro fuel cur layer pfx _ hfuel hwalk
      cases fuel with
      | zero => omega
      | succ f =>
          cases hlk : lookupChild h cur nm with
          | none =>
              simp only [walkChain, hlk] at hwalk
              exact Option.noConfusion hwalk
          | some c =>
              simp only [walkChain, hlk] at hwalk
              have hmem : (nm, c) ∈ childrenAt h cur :=
                alook_mem (childrenAt h cur) nm c hlk
              have hsome : ((fun nc : PStr × Ref =>
                  if nc.2 = layer then some (pfx ++ '.' :: nc.1)
                  else moduleToFqn f h nc.2 layer (pfx ++ '.' :: nc.1)) (nm, c)).isSome := by
                by_cases hlay : c = layer
                · simp [hlay]
                · simp only [hlay, if_false]
                  rcases hrest : rest with _ | ⟨r0, rs⟩
                  · rw [hrest] at hwalk
                    rw [walkChain] at hwalk
                    exact absurd (Option.some.inj hwalk) hlay
                  · have hne2 : rest ≠ [] := by rw [hrest]; simp
                    have hlen : rest.length < f := by
                      simp only [List.length_cons] at hfuel
                      omega
                    obtain ⟨q, hq⟩ := ih f c layer (pfx ++ '.' :: nm) hne2 hlen hwalk
                    simp [hq]
              have hfound := findSome_isSome_of_mem (childrenAt h cur)
                (fun nc : PStr × Ref =>
                  if nc.2 = layer then some (pfx ++ '.' :: nc.1)
                  else moduleToFqn f h nc.2 layer (pfx ++ '.' :: nc.1)) (nm, c) hmem hsome
              rw [Option.isSome_iff_exists] at hfound
              obtain ⟨p, hp⟩ := hfound
              exact ⟨p, by rw [moduleToFqn]; exact hp⟩

/-- C2 counterexample: `_module_to_fqn` resolves the linear child of the
example model to the path ".lin" (leading separator included), and feeding
that very path back into `_fqn_to_module` yields not-found, because
splitting on '.' produces an empty first component whose attribute lookup
fails; so the raw round-trip does not return the module. -/
theorem c2_counterexample :
    moduleToFqn 2 exH 0 1 [] = some ('.' :: "lin".toList) ∧
    fqnToModule exH 0 ('.' :: "lin".toList) = none := by
  decide

/-- C2 (amended): for every module reachable from the root by a non-empty
chain of child lookups, `_module_to_fqn` succeeds (given fuel beyond the
chain length) and resolving its result back with `_fqn_to_module` after
stripping the leading '.' — exactly the normalization `prepare`
performs — yields the module again. -/
theorem c2_roundtrip_after_strip (h : Heap) (root layer : Ref) (names : List PStr)
    (fuel : Nat) (hwf : wfHeap h) (hne : names ≠ [])
    (hreach : walkChain h root names = some layer)
    (hfuel : names.length < fuel) :
    ∃ p, moduleToFqn fuel h root layer [] = some p ∧
      fqnToModule h root (stripLeadingDot p) = some layer := by
  obtain ⟨p, hp⟩ := moduleToFqn_complete h names fuel root layer [] hne hfuel hreach
  obtain ⟨names', hne', hdots', hpeq, hwalk'⟩ :=
    moduleToFqn_sound h hwf fuel root layer [] p hp
  refine ⟨p, hp, ?_⟩
  obtain ⟨n0, rest, rfl⟩ := List.exists_cons_of_ne_nil hne'
  have hn0 : '.' ∉ n0 := hdots' n0 (by simp)
  have hrestdots : ∀ n ∈ rest, '.' ∉ n := fun n hn => hdots' n (by simp [hn])
  rw [hpeq]
  simp only [List.nil_append, List.flatMap_cons]
  rw [show ('.' :: n0) ++ rest.flatMap (fun n => '.' :: n)
      = '.' :: (n0 ++ rest.flatMap (fun n => '.' :: n)) from rfl,
    show stripLeadingDot ('.' :: (n0 ++ rest.flatMap (fun n => '.' :: n)))
      = n0 ++ rest.flatMap (fun n => '.' :: n) from rfl]
  rw [fqnToModule, splitOnDot_join rest n0 hn0 hrestdots]
  exact hwalk'

theorem c2_witness :
    wfHeap exH ∧ ["lin".toList] ≠ [] ∧
    walkChain exH 0 ["lin".toList] = some 1 ∧
    (["lin".toList] : List PStr).length < 2 ∧
    ∃ p, moduleToFqn 2 exH 0 1 [] = some p ∧
      fqnToModule exH 0 (stripLeadingDot p) = some 1 :=
  ⟨⟨by decide, by decide⟩, by decide, by decide, by decide,
   c2_roundtrip_after_strip exH 0 1 ["lin".toList] 2 ⟨by decide, by decide⟩ (by decide)
     (by decide) (by decide)⟩

theorem skel_lookup (h1 h2 : Heap) (hsk : skel h1 = skel h2) (r : Ref) :
    (hGet h1 r).map (fun n => (n.cls, n.children)) =
      (hGet h2 r).map (fun n => (n.cls, n.children)) := by
  induction h1 generalizing h2 with
  | nil =>
      cases h2 with
      | nil => rfl
      | cons q t2 => exact absurd hsk (by simp [skel])
  | cons p t ih =>
      cases h2 with
      | nil => exact absurd hsk (by simp [skel])
      | cons q t2 =>
          obtain ⟨r1, n1⟩ := p
          obtain ⟨r2, n2⟩ := q
          simp only [skel, List.map_cons, List.cons.injEq, Prod.mk.injEq] at hsk
          obtain ⟨⟨hr, hcls, hch⟩, htail⟩ := hsk
          subst hr
          by_cases hrr : r = r1
          · simp [hGet, alook, hrr, hcls, hch]
          · simp only [hGet, alook, if_neg hrr]
            exact ih t2 (by simpa [skel] using htail) 

theorem childrenAt_skel (h1 h2 : Heap) (hsk : skel h1 = skel h2) (r : Ref) :
    childrenAt h1 r = childrenAt h2 r := by
  have hl := skel_lookup h1 h2 hsk r
  unfold childrenAt
  cases hq1 : hGet h1 r with
  | none =>
      cases hq2 : hGet h2 r with
      | none => rfl
      | some n2 => rw [hq1, hq2] at hl; exact Option.noConfusion hl
  | some n1 =>
      cases hq2 : hGet h2 r with
      | none => rw [hq1, hq2] at hl; exact Option.noConfusion hl
      | some n2 =>
          rw [hq1, hq2] at hl
          have hcc : n1.cls = n2.cls ∧ n1.children = n2.children := by simpa using hl
          exact hcc.2

theorem walkChain_skel (h1 h2 : Heap) (hsk : skel h1 = skel h2) :
    ∀ names r, walkChain h1 r names = walkChain h2 r names := by
  intro names
  induction names with
  | nil => intro r; rfl
  | cons nm rest ih =>
      intro r
      have hch : lookupChild h1 r nm = lookupChild h2 r nm := by
        unfold lookupChild
        rw [childrenAt_skel h1 h2 hsk r]
      show (match lookupChild h1 r nm with
            | none => none
            | some c => walkChain h1 c rest) =
          (match lookupChild h2 r nm with
           | none => none
           | some c => walkChain h2 c rest)
      rw [hch]
      cases lookupChild h2 r nm with
      | none => rfl
      | some c => exact ih c

theorem fqnToModule_skel (h1 h2 : Heap) (hsk : skel h1 = skel h2) (root : Ref)
    (path : PStr) : fqnToModule h1 root path = fqnToModule h2 root path := by
  unfold fqnToModule
  exact walkChain_skel h1 h2 hsk (splitOnDot path) root

theorem clsAt_skel (h1 h2 : Heap) (hsk : skel h1 = skel h2) (r : Ref) :
    (hGet h1 r).map (·.cls) = (hGet h2 r).map (·.cls) := by
  have hl := skel_lookup h1 h2 hsk r
  cases hq1 : hGet h1 r with
  | none =>
      cases hq2 : hGet h2 r with
      | none => rfl
      | some n2 => rw [hq1, hq2] at hl; exact Option.noConfusion hl
  | some n1 =>
      cases hq2 : hGet h2 r with
      | none => rw [hq1, hq2] at hl; exact Option.noConfusion hl
      | some n2 =>
          rw [hq1, hq2] at hl
          have hcc : n1.cls = n2.cls ∧ n1.children = n2.children := by simpa using hl
          simp [hcc.1]

theorem stepGroups_cons_none (cb : Option Ref → MGroup → Heap → Heap) (model : Ref)
    (usePath : Bool) (g : MGroup) (rest : List MGroup) (h : Heap) (evs : List StepEvent)
    (hmo : resolveStep h model usePath g = .ok none) :
    stepGroups cb model usePath (g :: rest) h evs =
      stepGroups cb model usePath rest (cb none g h) (evs ++ [StepEvent.invoke none g]) := by
  rw [stepGroups, hmo]

theorem stepGroups_cons_dangling (cb : Option Ref → MGroup → Heap → Heap) (model : Ref)
    (usePath : Bool) (g : MGroup) (rest : List MGroup) (h : Heap) (evs : List StepEvent)
    (r : Ref) (hmo : resolveStep h model usePath g = .ok (some r))
    (hq : hGet h r = none) :
    stepGroups cb model usePath (g :: rest) h evs =
      stepGroups cb model usePath rest (cb (some r) g h)
        (evs ++ [StepEvent.invoke (some r) g]) := by
  rw [stepGroups, hmo]
  simp [hq]

theorem stepGroups_cons_warn (cb : Option Ref → MGroup → Heap → Heap) (model : Ref)
    (usePath : Bool) (g : MGroup) (rest : List MGroup) (h : Heap) (evs : List StepEvent)
    (r : Ref) (n : Node) (hmo : resolveStep h model usePath g = .ok (some r))
    (hq : hGet h r = some n) (hman : exactIn n.cls NEEDS_MANUAL_UPDATE = true) :
    stepGroups cb model usePath (g :: rest) h evs =
      stepGroups cb model usePath rest h (evs ++ [StepEvent.warn n.cls.id]) := by
  rw [stepGroups, hmo]
  simp [hq, hman]

theorem stepGroups_cons_invoke (cb : Option Ref → MGroup → Heap → Heap) (model : Ref)
    (usePath : Bool) (g : MGroup) (rest : List MGroup) (h : Heap) (evs : List StepEvent)
    (r : Ref) (n : Node) (hmo : resolveStep h model usePath g = .ok (some r))
    (hq : hGet h r = some n) (hman : exactIn n.cls NEEDS_MANUAL_UPDATE = false) :
    stepGroups cb model usePath (g :: rest) h evs =
      stepGroups cb model usePath rest (cb (some r) g h)
        (evs ++ [StepEvent.invoke (some r) g]) := by
  rw [stepGroups, hmo]
  simp [hq, hman]

theorem hGet_none_of_skel (h h0 : Heap) (hsk : skel h = skel h0) (r : Ref)
    (hq0 : hGet h0 r = none) : hGet h r = none := by
  have hcls := clsAt_skel h h0 hsk r
  rw [hq0] at hcls
  cases hq : hGet h r with
  | none => rfl
  | some n => rw [hq] at hcls; exact Option.noConfusion hcls

theorem hGet_cls_of_skel (h h0 : Heap) (hsk : skel h = skel h0) (r : Ref) (n0 : Node)
    (hq0 : hGet h0 r = some n0) : ∃ n, hGet h r = some n ∧ n.cls = n0.cls := by
  have hcls := clsAt_skel h h0 hsk r
  rw [hq0] at hcls
  cases hq : hGet h r with
  | none => rw [hq] at hcls; exact Option.noConfusion hcls
  | some n =>
      rw [hq] at hcls
      exact ⟨n, rfl, by simpa using hcls⟩

theorem stepGroups_trace (cb : Option Ref → MGroup → Heap → Heap) (model : Ref)
    (usePath : Bool) (h0 : Heap)
    (hcb : ∀ mo g hh, skel (cb mo g hh) = skel hh) :
    ∀ gs h evs, skel h = skel h0 →
      (usePath = true → ∀ g ∈ gs, (g.fqn).isSome) →
      ∃ h', stepGroups cb model usePath gs h evs = .ok (h', evs ++ gs.map (fun g =>
          match (if usePath then g.fqn.bind (fqnToModule h0 model) else some g.module) with
          | some r =>
              match hGet h0 r with
              | some n =>
                  if exactIn n.cls NEEDS_MANUAL_UPDATE then StepEvent.warn n.cls.id
                  else StepEvent.invoke (some r) g
              | none => StepEvent.invoke (some r) g
          | none => StepEvent.invoke none g)) := by
  intro gs
  induction gs with
  | nil =>
      intro h evs hsk _
      exact ⟨h, by simp [stepGroups]⟩
  | cons g rest ih =>
      intro h evs hsk hfqn
      have hrest : usePath = true → ∀ g' ∈ rest, (g'.fqn).isSome :=
        fun hu g' hg' => hfqn hu g' (by simp [hg'])
      have hres : ∃ mo, resolveStep h model usePath g = .ok mo ∧
          (if usePath then g.fqn.bind (fqnToModule h0 model) else some g.module) = mo := by
        cases husep : usePath with
        | false => exact ⟨some g.module, by simp [resolveStep], by simp⟩
        | true =>
            obtain ⟨path, hpath⟩ := Option.isSome_iff_exists.mp
              (hfqn husep g (by simp))
            refine ⟨fqnToModule h model path, ?_, ?_⟩
            · simp [resolveStep, hpath]
            · simp [hpath, fqnToModule_skel h0 h hsk.symm model path]
      obtain ⟨mo, hmo, hmodef⟩ := hres
      cases mo with
      | none =>
          obtain ⟨h', hrec⟩ := ih (cb none g h) (evs ++ [StepEvent.invoke none g])
            ((hcb none g h).trans hsk) hrest
          refine ⟨h', ?_⟩
          rw [stepGroups_cons_none cb model usePath g rest h evs hmo, hrec]
          simp only [List.map_cons, hmodef]
          simp
      | some r =>
          cases hq0 : hGet h0 r with
          | none =>
              obtain ⟨h', hrec⟩ := ih (cb (some r) g h)
                (evs ++ [StepEvent.invoke (some r) g])
                ((hcb (some r) g h).trans hsk) hrest
              refine ⟨h', ?_⟩
              rw [stepGroups_cons_dangling cb model usePath g rest h evs r hmo
                (hGet_none_of_skel h h0 hsk r hq0), hrec]
              simp only [List.map_cons, hmodef]
              simp [hq0]
          | some n0 =>
              obtain ⟨n, hn, hncls⟩ := hGet_cls_of_skel h h0 hsk r n0 hq0
              cases hman : exactIn n0.cls NEEDS_MANUAL_UPDATE with
              | true =>
                  obtain ⟨h', hrec⟩ := ih h (evs ++ [StepEvent.warn n0.cls.id]) hsk hrest
                  refine ⟨h', ?_⟩
                  rw [stepGroups_cons_warn cb model usePath g rest h evs r n hmo hn
                    (by rw [hncls]; exact hman), hncls, hrec]
                  simp only [List.map_cons, hmodef]
                  simp [hq0, hman]
              | false =>
                  obtain ⟨h', hrec⟩ := ih (cb (some r) g h)
                    (evs ++ [StepEvent.invoke (some r) g])
                    ((hcb (some r) g h).trans hsk) hrest
                  refine ⟨h', ?_⟩
                  rw [stepGroups_cons_invoke cb model usePath g rest h evs r n hmo hn
                    (by rw [hncls]; exact hman), hrec]
                  simp only [List.map_cons, hmodef]
                  simp [hq0, hman]

/-- C6: with the global switch enabled, `step` walks the module groups in
registry order and emits exactly one event per group: a non-fatal warning
(and no callback) whenever the resolved module's exact type is in the
needs-manual-update set, and otherwise an invocation of the abstract
`update_mask` callback with the resolved module and the group's full
configuration map.  The callback (`cb`) may mutate mask state freely; it
is only assumed to preserve the heap's structural skeleton. -/
theorem c6_step_enabled_trace (cb : Option Ref → MGroup → Heap → Heap)
    (h : Heap) (p : Pruner) (usePath : Bool)
    (hen : p.enableMaskUpdate = true)
    (hcb : ∀ mo g hh, skel (cb mo g hh) = skel hh)
    (hfqn : usePath = true → ∀ g ∈ p.moduleGroups, (g.fqn).isSome) :
    ∃ h', step cb h p usePath = .ok (h', p.moduleGroups.map (fun g =>
      match (if usePath then g.fqn.bind (fqnToModule h p.model) else some g.module) with
      | some r =>
          match hGet h r with
          | some n =>
              if exactIn n.cls NEEDS_MANUAL_UPDATE then StepEvent.warn n.cls.id
              else StepEvent.invoke (some r) g
          | none => StepEvent.invoke (some r) g
      | none => StepEvent.invoke none g)) := by
  obtain ⟨h', hh⟩ := stepGroups_trace cb p.model usePath h hcb p.moduleGroups h [] rfl hfqn
  refine ⟨h', ?_⟩
  rw [step, if_neg (by simp [hen])]
  simpa using hh

theorem c6_witness :
    pEn.enableMaskUpdate = true ∧
    (∀ mo g hh, skel (cbId mo g hh) = skel hh) ∧
    (true = true → ∀ g ∈ pEn.moduleGroups, (g.fqn).isSome) ∧
    ∃ h', step cbId exH pEn true = .ok (h', pEn.moduleGroups.map (fun g =>
      match (if true then g.fqn.bind (fqnToModule exH pEn.model) else some g.module) with
      | some r =>
          match hGet exH r with
          | some n =>
              if exactIn n.cls NEEDS_MANUAL_UPDATE then StepEvent.warn n.cls.id
              else StepEvent.invoke (some r) g
          | none => StepEvent.invoke (some r) g
      | none => StepEvent.invoke none g)) :=
  ⟨rfl, fun _ _ _ => rfl, by decide,
   c6_step_enabled_trace cbId exH pEn true rfl (fun _ _ _ => rfl) (by decide)⟩

theorem manual_sub_supported (c : PyCls)
    (hm : exactIn c NEEDS_MANUAL_UPDATE = true) :
    exactIn c SUPPORTED_MODULES = true := by
  simp only [exactIn, NEEDS_MANUAL_UPDATE, List.contains_cons, List.contains_nil,
    Bool.or_false] at hm
  have hid : c.id = ClassId.nnBatchNorm2d := eq_of_beq hm
  simp [exactIn, SUPPORTED_MODULES, hid]

theorem scanKids_fst (h : Heap) (pb : Bool) (cs : List (PStr × Ref)) :
    (scanKids h pb cs).1 = (cs.filter (supP h)).map (·.2) := by
  induction cs with
  | nil => rfl
  | cons nc rest ih =>
      obtain ⟨nm, c⟩ := nc
      rw [scanKids]
      cases hq : hGet h c with
      | none => simp [hq, supP, ih]
      | some n =>
          cases hsup : exactIn n.cls SUPPORTED_MODULES with
          | true => simp [hq, hsup, supP, ih]
          | false =>
              cases hcond : exactIn n.cls NEEDS_MANUAL_UPDATE && pb with
              | true => simp [hq, hsup, hcond, supP, ih]
              | false => simp [hq, hsup, hcond, supP, ih]

theorem scanKids_warns (h : Heap) (pb : Bool) (cs : List (PStr × Ref)) :
    (scanKids h pb cs).2.1 = [] := by
  induction cs with
  | nil => rfl
  | cons nc rest ih =>
      obtain ⟨nm, c⟩ := nc
      rw [scanKids]
      cases hq : hGet h c with
      | none => simpa [hq] using ih
      | some n =>
          cases hsup : exactIn n.cls SUPPORTED_MODULES with
          | true => simpa [hq, hsup] using ih
          | false =>
              have hman : exactIn n.cls NEEDS_MANUAL_UPDATE = false := by
                cases hm : exactIn n.cls NEEDS_MANUAL_UPDATE with
                | false => rfl
                | true => rw [manual_sub_supported n.cls hm] at hsup; exact Bool.noConfusion hsup
              simpa [hq, hsup, hman] using ih

theorem scanKids_push (h : Heap) (pb : Bool) (cs : List (PStr × Ref)) :
    (scanKids h pb cs).2.2 = ((cs.filter (pushP h)).map (·.2)).reverse := by
  induction cs with
  | nil => rfl
  | cons nc rest ih =>
      obtain ⟨nm, c⟩ := nc
      rw [scanKids]
      cases hq : hGet h c with
      | none => simp [hq, pushP, ih]
      | some n =>
          cases hsup : exactIn n.cls SUPPORTED_MODULES with
          | true => simp [hq, hsup, pushP, ih]
          | false =>
              cases hcond : exactIn n.cls NEEDS_MANUAL_UPDATE && pb with
              | true => simp [hq, hsup, hcond, pushP, ih]
              | false => simp [hq, hsup, hcond, pushP, ih]

theorem discoverLoop_warns (h : Heap) (pb : Bool) :
    ∀ fuel stack acc warns, (discoverLoop fuel h pb stack acc warns).2 = warns := by
  intro fuel
  induction fuel with
  | zero => intro stack acc warns; rfl
  | succ f ih =>
      intro stack acc warns
      cases stack with
      | nil => rfl
      | cons r rest =>
          rcases hscan : scanKids h pb (childrenAt h r) with ⟨reg, ws, push⟩
          have hws : ws = [] := by
            have := scanKids_warns h pb (childrenAt h r)
            rw [hscan] at this
            exact this
          rw [discoverLoop, hscan]
          simp only [hws, List.append_nil]
          exact ih (push ++ rest) (acc ++ reg) warns

theorem discoverLoop_sound (h : Heap) (pb : Bool) :
    ∀ fuel stack acc warns,
      (∀ c ∈ acc, ∃ n, hGet h c = some n ∧ exactIn n.cls SUPPORTED_MODULES = true) →
      ∀ c ∈ (discoverLoop fuel h pb stack acc warns).1,
        ∃ n, hGet h c = some n ∧ exactIn n.cls SUPPORTED_MODULES = true := by
  intro fuel
  induction fuel with
  | zero => intro stack acc warns hacc; exact hacc
  | succ f ih =>
      intro stack acc warns hacc
      cases stack with
      | nil => exact hacc
      | cons r rest =>
          rcases hscan : scanKids h pb (childrenAt h r) with ⟨reg, ws, push⟩
          have hreg : reg = ((childrenAt h r).filter (supP h)).map (·.2) := by
            have := scanKids_fst h pb (childrenAt h r)
            rw [hscan] at this
            exact this
          rw [discoverLoop, hscan]
          refine ih (push ++ rest) (acc ++ reg) (warns ++ ws) ?_
          intro c hc
          rcases List.mem_append.mp hc with hca | hcr
          · exact hacc c hca
          · rw [hreg] at hcr
            obtain ⟨nc, hncf, hnc2⟩ := List.mem_map.mp hcr
            obtain ⟨-, hsupnc⟩ := List.mem_filter.mp hncf
            unfold supP at hsupnc
            cases hq : hGet h nc.2 with
            | none => rw [hq] at hsupnc; exact Bool.noConfusion hsupnc
            | some n =>
                rw [hq] at hsupnc
                exact ⟨n, by rw [← hnc2]; exact hq, hsupnc⟩

theorem discoverLoop_mono (h : Heap) (pb : Bool) :
    ∀ fuel stack acc warns, ∃ t, (discoverLoop fuel h pb stack acc warns).1 = acc ++ t := by
  intro fuel
  induction fuel with
  | zero => intro stack acc warns; exact ⟨[], by simp [discoverLoop]⟩
  | succ f ih =>
      intro stack acc warns
      cases stack with
      | nil => exact ⟨[], by simp [discoverLoop]⟩
      | cons r rest =>
          rcases hscan : scanKids h pb (childrenAt h r) with ⟨reg, ws, push⟩
          obtain ⟨t, ht⟩ := ih (push ++ rest) (acc ++ reg) (warns ++ ws)
          refine ⟨reg ++ t, ?_⟩
          rw [discoverLoop, hscan, ht, List.append_assoc]

theorem block_sublist {α β : Type} (f : α → List β) :
    ∀ (l : List α) (p : α), p ∈ l → List.Sublist (f p) (l.flatMap f) := by
  intro l
  induction l with
  | nil => intro p hp; simp at hp
  | cons a rest ih =>
      intro p hp
      rcases List.mem_cons.mp hp with rfl | htail
      · simpa using List.sublist_append_left (f p) (rest.flatMap f)
      · simpa using (ih p htail).trans (List.sublist_append_right (f a) (rest.flatMap f))

theorem flatMap_nodup_disjoint {α β : Type} (f : α → List β) :
    ∀ (l : List α), (l.flatMap f).Nodup →
      ∀ p ∈ l, ∀ q ∈ l, p ≠ q → ∀ c, c ∈ f p → c ∈ f q → False := by
  intro l
  induction l with
  | nil => intro _ p hp; simp at hp
  | cons a rest ih =>
      intro hnd p hp q hq hpq c hcp hcq
      rw [List.flatMap_cons, List.nodup_append] at hnd
      obtain ⟨hnda, hndrest, hdisj⟩ := hnd
      rcases List.mem_cons.mp hp with rfl | hptail
      · rcases List.mem_cons.mp hq with rfl | hqtail
        · exact hpq rfl
        · exact hdisj hcp (List.mem_flatMap.mpr ⟨q, hqtail, hcq⟩)
      · rcases List.mem_cons.mp hq with rfl | hqtail
        · exact hdisj hcq (List.mem_flatMap.mpr ⟨p, hptail, hcp⟩)
        · exact ih hndrest p hptail q hqtail hpq c hcp hcq

theorem kidRefs_eq (h : Heap) (r : Ref) (n : Node) (hr : hGet h r = some n) :
    kidRefs h r = n.children.map (·.2) := by
  rw [kidRefs, childrenAt, hr]

theorem kid_mem_allChild (h : Heap) (r : Ref) (c : Ref) (hc : c ∈ kidRefs h r) :
    c ∈ allChild h := by
  rw [kidRefs, childrenAt] at hc
  cases hr : hGet h r with
  | none => rw [hr] at hc; simp at hc
  | some n =>
      rw [hr] at hc
      exact (block_sublist (fun q => q.2.children.map (·.2)) h (r, n)
        (alook_mem h r n hr)).mem hc

theorem kidRefs_nodup (h : Heap) (root : Ref) (hwfst : wfForest h root) (r : Ref) :
    (kidRefs h r).Nodup := by
  rw [kidRefs, childrenAt]
  cases hr : hGet h r with
  | none => simp
  | some n =>
      exact hwfst.2.1.sublist (block_sublist (fun q => q.2.children.map (·.2)) h (r, n)
        (alook_mem h r n hr))

theorem kidRefs_disjoint (h : Heap) (root : Ref) (hwfst : wfForest h root)
    (r q c : Ref) (hrq : r ≠ q) (hcr : c ∈ kidRefs h r) (hcq : c ∈ kidRefs h q) :
    False := by
  rw [kidRefs, childrenAt] at hcr hcq
  cases hgr : hGet h r with
  | none => rw [hgr] at hcr; simp at hcr
  | some n =>
      cases hgq : hGet h q with
      | none => rw [hgq] at hcq; simp at hcq
      | some m =>
          rw [hgr] at hcr
          rw [hgq] at hcq
          have hall : (List.flatMap h (fun p => p.2.children.map (·.2))).Nodup := hwfst.2.1
          refine flatMap_nodup_disjoint (fun p => p.2.children.map (·.2)) h hall
            (r, n) (alook_mem h r n hgr) (q, m) (alook_mem h q m hgq) ?_ c hcr hcq
          intro hcontra
          exact hrq (congrArg Prod.fst hcontra)

theorem nodup_reassemble (P S A Rg Pu : List Ref) (r : Ref)
    (hold : (P ++ (r :: S) ++ A).Nodup)
    (hnew : (Rg ++ Pu).Nodup)
    (hfresh : ∀ c, c ∈ Rg ++ Pu → ¬ c ∈ P ++ (r :: S) ++ A) :
    (((P ++ [r]) ++ (Pu ++ S)) ++ (A ++ Rg)).Nodup := by
  have hbig : ((P ++ (r :: S) ++ A) ++ (Rg ++ Pu)).Nodup := by
    rw [List.nodup_append]
    exact ⟨hold, hnew, fun a ha ha' => hfresh a ha' ha⟩
  have hperm : List.Perm (((P ++ [r]) ++ (Pu ++ S)) ++ (A ++ Rg))
      ((P ++ (r :: S) ++ A) ++ (Rg ++ Pu)) := by
    refine List.perm_iff_count.mpr (fun a => ?_)
    simp only [List.count_append, List.count_cons, List.count_singleton]
    by_cases ha : a = r
    · simp [ha]
      omega
    · simp [ha]
      omega
  exact hperm.nodup_iff.mpr hbig

theorem discover_nodup_aux (h : Heap) (pb : Bool) (root : Ref) (hwfst : wfForest h root) :
    ∀ fuel stack acc warns popped,
      ((popped ++ stack) ++ acc).Nodup →
      (∀ c, c ∈ (popped ++ stack) ++ acc → c = root ∨ ∃ q, q ∈ popped ∧ c ∈ kidRefs h q) →
      ((discoverLoop fuel h pb stack acc warns).1).Nodup := by
  intro fuel
  induction fuel with
  | zero =>
      intro stack acc warns popped hnd hinv
      exact hnd.sublist (List.sublist_append_right (popped ++ stack) acc)
  | succ f ih =>
      intro stack acc warns popped hnd hinv
      cases stack with
      | nil => exact hnd.sublist (List.sublist_append_right (popped ++ []) acc)
      | cons r rest =>
          rcases hscan : scanKids h pb (childrenAt h r) with ⟨reg, ws, push⟩
          have hreg : reg = ((childrenAt h r).filter (supP h)).map (·.2) := by
            have := scanKids_fst h pb (childrenAt h r)
            rw [hscan] at this
            exact this
          have hpush : push = (((childrenAt h r).filter (pushP h)).map (·.2)).reverse := by
            have := scanKids_push h pb (childrenAt h r)
            rw [hscan] at this
            exact this
          rw [discoverLoop, hscan]
          have hmemkid : ∀ c, c ∈ reg ++ push → c ∈ kidRefs h r := by
            intro c hc
            rcases List.mem_append.mp hc with hcr | hcp
            · rw [hreg] at hcr
              obtain ⟨nc, hncf, hnc2⟩ := List.mem_map.mp hcr
              rw [kidRefs]
              exact List.mem_map.mpr ⟨nc, (List.mem_filter.mp hncf).1, hnc2⟩
            · rw [hpush, List.mem_reverse] at hcp
              obtain ⟨nc, hncf, hnc2⟩ := List.mem_map.mp hcp
              rw [kidRefs]
              exact List.mem_map.mpr ⟨nc, (List.mem_filter.mp hncf).1, hnc2⟩
          have hfresh : ∀ c, c ∈ reg ++ push → ¬ c ∈ popped ++ (r :: rest) ++ acc := by
            intro c hc hcold
            have hkid := hmemkid c hc
            rcases hinv c (by simpa using hcold) with rfl | ⟨q, hq, hcq⟩
            · exact hwfst.2.2 (kid_mem_allChild h r c hkid)
            · have hrq : r ≠ q := by
                rintro rfl
                have hnd' : (popped ++ (r :: rest)).Nodup :=
                  hnd.sublist (List.sublist_append_left (popped ++ (r :: rest)) acc)
                rw [List.nodup_append] at hnd'
                exact hnd'.2.2 hq (by simp)
              exact kidRefs_disjoint h root hwfst r q c hrq hkid hcq
          have hnewnd : (reg ++ push).Nodup := by
            have hknd : ((childrenAt h r).map (·.2)).Nodup := by
              have := kidRefs_nodup h root hwfst r
              rwa [kidRefs] at this
            have hregnd : reg.Nodup := by
              rw [hreg]
              exact hknd.sublist ((List.filter_sublist _).map _)
            have hpushnd : push.Nodup := by
              rw [hpush, List.nodup_reverse]
              exact hknd.sublist ((List.filter_sublist _).map _)
            rw [List.nodup_append]
            refine ⟨hregnd, hpushnd, ?_⟩
            intro c hcr hcp
            rw [hreg] at hcr
            rw [hpush, List.mem_reverse] at hcp
            obtain ⟨nc, hncf, hnc2⟩ := List.mem_map.mp hcr
            obtain ⟨nc', hncf', hnc2'⟩ := List.mem_map.mp hcp
            obtain ⟨hncm, hsup⟩ := List.mem_filter.mp hncf
            obtain ⟨hncm', hpushp⟩ := List.mem_filter.mp hncf'
            have heq : nc = nc' :=
              List.inj_on_of_nodup_map hknd hncm hncm' (by rw [hnc2, hnc2'])
            rw [← heq] at hpushp
            unfold supP at hsup
            unfold pushP at hpushp
            cases hgq : hGet h nc.2 with
            | none =>
                simp only [hgq] at hsup
                exact Bool.noConfusion hsup
            | some n =>
                simp only [hgq] at hsup hpushp
                rw [hsup] at hpushp
                simp at hpushp
          refine ih (push ++ rest) (acc ++ reg) (warns ++ ws) (popped ++ [r]) ?_ ?_
          · refine nodup_reassemble popped rest acc reg push r ?_ hnewnd ?_
            · simpa using hnd
            · intro c hc
              exact hfresh c hc
          · intro c hc
            have holdcase : ∀ c', c' ∈ (popped ++ (r :: rest)) ++ acc →
                c' = root ∨ ∃ q, q ∈ popped ++ [r] ∧ c' ∈ kidRefs h q := by
              intro c' hc'
              rcases hinv c' hc' with hroot | ⟨q, hq, hcq⟩
              · exact Or.inl hroot
              · exact Or.inr ⟨q, List.mem_append_left [r] hq, hcq⟩
            have hnewcase : ∀ c', c' ∈ reg ++ push →
                c' = root ∨ ∃ q, q ∈ popped ++ [r] ∧ c' ∈ kidRefs h q := by
              intro c' hc'
              exact Or.inr ⟨r, by simp, hmemkid c' hc'⟩
            rcases List.mem_append.mp hc with hc1 | hc2
            · rcases List.mem_append.mp hc1 with hc3 | hc4
              · rcases List.mem_append.mp hc3 with hcp | hcr
                · exact holdcase c (by simp [hcp])
                · obtain rfl := List.mem_singleton.mp hcr
                  exact holdcase c (by simp)
              · rcases List.mem_append.mp hc4 with hcpu | hcrest
                · exact hnewcase c (List.mem_append_right reg hcpu)
                · exact holdcase c (by simp [hcrest])
            · rcases List.mem_append.mp hc2 with hcacc | hcreg
              · exact holdcase c (by simp [hcacc])
              · exact hnewcase c (List.mem_append_left push hcreg)

/-- C3 counterexample: auto-discovery (`prepare` with config None) on a
model whose only child is a BatchNorm2d layer registers a module group
for it and emits no warning, because `nn.BatchNorm2d` is a member of
`SUPPORTED_MODULES` and the warning branch is reachable only for types
outside that set; the claim instead says such modules are skipped with a
non-fatal warning. -/
theorem c3_counterexample :
    (hGet exHBN 1).map (·.cls.id) = some ClassId.nnBatchNorm2d ∧
    exactIn exBN.cls NEEDS_MANUAL_UPDATE = true ∧
    (prepare exHBN p0 0 none true).toOption.map
        (fun res => (res.2.1.moduleGroups.map (·.module), res.2.2)) =
      some ([1], []) := by
  decide

/-- C3 (amended): over any well-formed object forest, auto-discovery
registers only modules whose exact type is in the supported set, registers
no module twice, never emits a warning (the manual-update set is contained
in the supported set, so the warning branch is dead), and in particular a
supported child of the root — including an exact BatchNorm2d, which is in
the needs-manual-update set — is registered rather than skipped. -/
theorem c3_discovery_amended (h : Heap) (pb : Bool) (root : Ref) (fuel : Nat)
    (hwfst : wfForest h root) :
    (∀ c ∈ (discoverLoop fuel h pb [root] [] []).1,
      ∃ n, hGet h c = some n ∧ exactIn n.cls SUPPORTED_MODULES = true) ∧
    ((discoverLoop fuel h pb [root] [] []).1).Nodup ∧
    (discoverLoop fuel h pb [root] [] []).2 = [] ∧
    (∀ nc ∈ childrenAt h root, supP h nc = true → 1 ≤ fuel →
      nc.2 ∈ (discoverLoop fuel h pb [root] [] []).1) := by
  refine ⟨discoverLoop_sound h pb fuel [root] [] [] (by simp), ?_, discoverLoop_warns h pb fuel [root] [] [], ?_⟩
  · refine discover_nodup_aux h pb root hwfst fuel [root] [] [] [] (by simp) ?_
    intro c hc
    have : c = root := by simpa using hc
    exact Or.inl this
  · intro nc hnc hsup hfuel
    cases fuel with
    | zero => omega
    | succ f =>
        rcases hscan : scanKids h pb (childrenAt h root) with ⟨reg, ws, push⟩
        have hreg : reg = ((childrenAt h root).filter (supP h)).map (·.2) := by
          have := scanKids_fst h pb (childrenAt h root)
          rw [hscan] at this
          exact this
        have hstep : discoverLoop (f + 1) h pb [root] [] [] =
            discoverLoop f h pb (push ++ []) ([] ++ reg) ([] ++ ws) := by
          rw [discoverLoop, hscan]
        obtain ⟨t, ht⟩ := discoverLoop_mono h pb f (push ++ []) ([] ++ reg) ([] ++ ws)
        rw [hstep, ht]
        have hmem : nc.2 ∈ reg := by
          rw [hreg]
          exact List.mem_map.mpr ⟨nc, List.mem_filter.mpr ⟨hnc, hsup⟩, rfl⟩
        simp [hmem]

theorem c3_witness :
    wfForest exHBN 0 ∧
    ((∀ c ∈ (discoverLoop 3 exHBN true [0] [] []).1,
        ∃ n, hGet exHBN c = some n ∧ exactIn n.cls SUPPORTED_MODULES = true) ∧
      ((discoverLoop 3 exHBN true [0] [] []).1).Nodup ∧
      (discoverLoop 3 exHBN true [0] [] []).2 = [] ∧
      (∀ nc ∈ childrenAt exHBN 0, supP exHBN nc = true → 1 ≤ 3 →
        nc.2 ∈ (discoverLoop 3 exHBN true [0] [] []).1)) :=
  ⟨⟨by decide, by decide, by decide⟩,
   c3_discovery_amended exHBN true 0 3 ⟨by decide, by decide, by decide⟩⟩
